import Mathlib

/-!
Verification of the transaction-crafting core of `counterpartyd`
(`lib/bitcoin.py`): the Base58Check codec, wire primitives, coin
selection, transaction serialisation and assembly.

Shallow embedding conventions:
* machine bytes are `Nat` values (< 256 where it matters, carried as
  hypotheses or guaranteed by construction via `% 256`);
* Python `bytes` values are `List Nat`; Python `str` values are `List Char`;
* Python exceptions become an explicit `Except Err` result; the three
  distinct `assert` sites in the source are modelled by three distinct
  error constructors so they can be told apart from typed errors;
* network interaction (`rpc(...)`, `requests.get(...)`) is modelled by an
  explicit oracle record holding the responses the environment would give,
  plus an explicit trace (`List Rpc`) of the network calls performed.
-/

namespace Cpd

/-- Errors of the embedded code.  `invalidBase58`, `versionByte` and
`b58Checksum` mirror `InvalidBase58Error`, `VersionByteError` and
`Base58ChecksumError` raised by `base58_decode`; `invalidAddressError`,
`transactionError` and `balanceError` mirror the exceptions raised by
`transaction` / `get_inputs` (the `balanceError` constructor carries the
data interpolated into the Python message: the source address and the
needed total in satoshis); `assertNoAmount`, `assertSingleChunk` and
`assertPadLength` model the Python `assert` statements at
`bitcoin.py:380`, `bitcoin.py:392` and `bitcoin.py:293` respectively;
`nameError` models the `NameError` that the unreachable
`get_unspent_txouts(address, ...)` call at `bitcoin.py:334` would raise
(`address` is not defined in the scope of `get_inputs`). -/
inductive Err : Type
  | invalidBase58 : Err
  | versionByte : Err
  | b58Checksum : Err
  | invalidAddressError : Err
  | transactionError : Err
  | balanceError : List Char → Nat → Err
  | assertNoAmount : Err
  | assertSingleChunk : Err
  | assertPadLength : Err
  | nameError : Err
  deriving DecidableEq, Repr

/-- Decidable equality for `Except`, needed to evaluate concrete runs. -/
instance exceptDecEq [DecidableEq ε] [DecidableEq α] : DecidableEq (Except ε α) := fun a b =>
  match a, b with
  | .ok x, .ok y => if h : x = y then .isTrue (by rw [h]) else .isFalse (by simp [h])
  | .error x, .error y => if h : x = y then .isTrue (by rw [h]) else .isFalse (by simp [h])
  | .ok _, .error _ => .isFalse (by simp)
  | .error _, .ok _ => .isFalse (by simp)

/-! ## Byte-level helpers -/

/-- Big-endian byte-string value, as computed by
`int('0x0' + binascii.hexlify(x), 16)` in `base58_check_encode` and by the
digit loop of `base58_decode` (with base 58 there). -/
def bytesToNatBE (l : List Nat) : Nat := l.foldl (fun a b => a * 256 + b) 0

/-- Little-endian digits of `n` in base `b`, with explicit fuel (the
Python source extracts digits with an unbounded `while`/`'%x' % n` loop;
`fuel` is an upper bound on the number of digits, supplied at each call
site and justified by `natDigitsLE_eq_digits`). -/
def natDigitsLE (b : Nat) : Nat → Nat → List Nat
  | 0, _ => []
  | fuel + 1, n => if n = 0 then [] else n % b :: natDigitsLE b fuel (n / b)

/-- `i.to_bytes(k, byteorder='little')`.  The Python call raises
`OverflowError` when `v ≥ 256^k`; theorems that rely on the value being
represented carry that bound as a hypothesis. -/
def toBytesLE (k v : Nat) : List Nat := (List.range k).map (fun i => v / 256 ^ i % 256)

/-- Big-endian fixed-width bytes (used for the SHA-256 length field and
word serialisation). -/
def toBytesBE (k v : Nat) : List Nat := (List.range k).map (fun i => v / 256 ^ (k - 1 - i) % 256)

/-- Number of leading zero bytes, as counted by the `for c in d` loop of
`base58_check_encode`. -/
def leadZeroBytes : List Nat → Nat
  | [] => 0
  | c :: r => if c = 0 then leadZeroBytes r + 1 else 0

/-- Successive `n`-sized chunks of a list (the local generator `chunks`
in `transaction`), with explicit fuel (any `fuel ≥ l.length` gives the
full chunking; call sites pass `l.length`). -/
def chunksB (n : Nat) : Nat → List α → List (List α)
  | 0, _ => []
  | fuel + 1, l => if l.isEmpty then [] else l.take n :: chunksB n fuel (l.drop n)

/-! ## SHA-256 (pure `Nat` implementation of FIPS 180-4, used by
`dhash = sha256(sha256(x))`) -/

/-- Truncation to a 32-bit word. -/
def w32 (x : Nat) : Nat := x % 4294967296

/-- 32-bit right-rotation. -/
def rotr32 (n x : Nat) : Nat := w32 ((x >>> n) ||| (x <<< (32 - n)))

def shaCh (x y z : Nat) : Nat := (x &&& y) ^^^ ((x ^^^ 4294967295) &&& z)

def shaMaj (x y z : Nat) : Nat := (x &&& y) ^^^ (x &&& z) ^^^ (y &&& z)

def shaS0 (x : Nat) : Nat := rotr32 2 x ^^^ rotr32 13 x ^^^ rotr32 22 x

def shaS1 (x : Nat) : Nat := rotr32 6 x ^^^ rotr32 11 x ^^^ rotr32 25 x

def shas0 (x : Nat) : Nat := rotr32 7 x ^^^ rotr32 18 x ^^^ (x >>> 3)

def shas1 (x : Nat) : Nat := rotr32 17 x ^^^ rotr32 19 x ^^^ (x >>> 10)

def shaK : List Nat :=
  [1116352408, 1899447441, 3049323471, 3921009573, 961987163, 1508970993, 2453635748, 2870763221,
   3624381080, 310598401, 607225278, 1426881987, 1925078388, 2162078206, 2614888103, 3248222580,
   3835390401, 4022224774, 264347078, 604807628, 770255983, 1249150122, 1555081692, 1996064986,
   2554220882, 2821834349, 2952996808, 3210313671, 3336571891, 3584528711, 113926993, 338241895,
   666307205, 773529912, 1294757372, 1396182291, 1695183700, 1986661051, 2177026350, 2456956037,
   2730485921, 2820302411, 3259730800, 3345764771, 3516065817, 3600352804, 4094571909, 275423344,
   430227734, 506948616, 659060556, 883997877, 958139571, 1322822218, 1537002063, 1747873779,
   1955562222, 2024104815, 2227730452, 2361852424, 2428436474, 2756734187, 3204031479, 3329325298]

/-- SHA-256 message padding: `0x80`, zeros to 56 mod 64, 8-byte big-endian
bit length. -/
def sha256pad (msg : List Nat) : List Nat :=
  msg ++ [0x80] ++ List.replicate ((119 - msg.length % 64) % 64) 0
      ++ toBytesBE 8 (8 * msg.length)

/-- Pack a list of 32-bit words into one `Nat`, word 0 in the lowest bits
(for fast kernel evaluation via big-integer arithmetic). -/
def packWords (ws : List Nat) : Nat := ws.foldr (fun w acc => (acc <<< 32) ||| w) 0

/-- Word `t` of a packed word sequence. -/
def wAt (W t : Nat) : Nat := (W >>> (32 * t)) &&& 4294967295

/-- The 64 round constants, packed (the numeral equals `packWords shaK`;
see `shaKp_eq_packWords`). -/
def shaKp : Nat := 25051139735836467913601071899189108501681633092613316132753366958947502841281110980347811086624969305314199562795868290539880502533646505489797110349007385020507326982043050618112420254613810441709594605123090411975756494285771699200369901479195251226368983824020564277645963860728452821576845901498668417244438721537663670541944820957180957595559282976806173113161068298822071065329290006052849814285001949914564097058408480133985233335799884203712730341384999677089997083749077591931498939520449886954646413138343858395935213418018409268340744776361518554939863400075967197509182087778881547827184266701615699472280

/-- Extend 16 packed message-schedule words to 64. -/
def shaExtend (W16 : Nat) : Nat :=
  (List.range 48).foldl
    (fun W i =>
      W ||| ((w32 (shas1 (wAt W (i + 14)) + wAt W (i + 9)
                   + shas0 (wAt W (i + 1)) + wAt W i)) <<< (32 * (i + 16))))
    W16

/-- One compression round (`t` indexes into the packed schedule `W`). -/
def shaRound (W : Nat) (st : Nat × Nat × Nat × Nat × Nat × Nat × Nat × Nat) (t : Nat) :
    Nat × Nat × Nat × Nat × Nat × Nat × Nat × Nat :=
  match st with
  | (a, b, c, d, e, f, g, h) =>
    let t1 := w32 (h + shaS1 e + shaCh e f g + wAt shaKp t + wAt W t)
    let t2 := w32 (shaS0 a + shaMaj a b c)
    (w32 (t1 + t2), a, b, c, w32 (d + t1), e, f, g)

/-- Compress one 64-byte block into the running hash state (8 words). -/
def shaBlock (H : Nat × Nat × Nat × Nat × Nat × Nat × Nat × Nat) (block : List Nat) :
    Nat × Nat × Nat × Nat × Nat × Nat × Nat × Nat :=
  let W := shaExtend (packWords ((chunksB 4 block.length block).map bytesToNatBE))
  match H with
  | (h0, h1, h2, h3, h4, h5, h6, h7) =>
    match (List.range 64).foldl (shaRound W) (h0, h1, h2, h3, h4, h5, h6, h7) with
    | (a, b, c, d, e, f, g, h) =>
      (w32 (h0 + a), w32 (h1 + b), w32 (h2 + c), w32 (h3 + d),
       w32 (h4 + e), w32 (h5 + f), w32 (h6 + g), w32 (h7 + h))

/-- SHA-256 of a byte string, as a list of 32 bytes. -/
def sha256 (msg : List Nat) : List Nat :=
  let padded := sha256pad msg
  match (chunksB 64 padded.length padded).foldl shaBlock
      (1779033703, 3144134277, 1013904242, 2773480762,
       1359893119, 2600822924, 528734635, 1541459225) with
  | (h0, h1, h2, h3, h4, h5, h6, h7) =>
    toBytesBE 4 h0 ++ toBytesBE 4 h1 ++ toBytesBE 4 h2 ++ toBytesBE 4 h3 ++
    toBytesBE 4 h4 ++ toBytesBE 4 h5 ++ toBytesBE 4 h6 ++ toBytesBE 4 h7

/-- `dhash = lambda x: sha256(sha256(x).digest()).digest()` (`bitcoin.py:37`). -/
def dhash (x : List Nat) : List Nat := sha256 (sha256 x)

/-! ## Base58Check codec (`base58_check_encode`, `base58_decode`) -/

/-- `b58_digits` (`bitcoin.py:34`). -/
def b58_digits : List Char :=
  "123456789ABCDEFGHJKLMNPQRSTUVWXYZabcdefghijkmnopqrstuvwxyz".toList

/-- `base58_check_encode(b, version)` (`bitcoin.py:153`).  The Python
function receives the payload hex-encoded and immediately unhexlifies it;
the embedding takes the payload directly as bytes.  The divmod loop that
collects base-58 digits least-significant first and then reverses them is
`(natDigitsLE 58 _ n).reverse`; the fuel `2 * address_hex.length` bounds
the digit count since `n < 256^address_hex.length ≤ 58^(2*address_hex.length)`. -/
def base58_check_encode (b : List Nat) (version : List Nat) : List Char :=
  let d := version ++ b
  let address_hex := d ++ (dhash d).take 4
  let n := bytesToNatBE address_hex
  let res := ((natDigitsLE 58 (2 * address_hex.length) n).map
    (fun r => b58_digits.getD r '1')).reverse
  let pad := leadZeroBytes d
  List.replicate pad '1' ++ res

/-- The character-to-integer loop of `base58_decode` (`bitcoin.py:179`):
`n = 0; for c in s: n *= 58; check membership; n += digit`. -/
def b58StrToNat : List Char → Nat → Except Err Nat
  | [], n => .ok n
  | c :: cs, n =>
    if c ∈ b58_digits then b58StrToNat cs (n * 58 + b58_digits.indexOf c)
    else .error .invalidBase58

/-- The `for c in s[:-1]` padding count of `base58_decode` (`bitcoin.py:194`). -/
def leadB58Ones : List Char → Nat
  | [] => 0
  | c :: r => if c = b58_digits.getD 0 ' ' then leadB58Ones r + 1 else 0

/-- `base58_decode(s, version)` (`bitcoin.py:177`).  `'%x' % n` followed by
odd-length zero-padding and `unhexlify` is the minimal big-endian byte
string of `n` (and `[0]` for `n = 0`); the fuel `s.length` bounds the byte
count since `n < 58^s.length ≤ 256^s.length`.  Python's negative-index
slices `k[1:-4]` and `k[-4:]` clamp at zero exactly as truncated `Nat`
subtraction does. -/
def base58_decode (s : List Char) (version : List Nat) : Except Err (List Nat) :=
  match b58StrToNat s 0 with
  | .error e => .error e
  | .ok n =>
    let res := if n = 0 then [0] else (natDigitsLE 256 s.length n).reverse
    let pad := leadB58Ones s.dropLast
    let k := (List.replicate pad version).flatten ++ res
    let addrbyte := k.take 1
    let data := (k.take (k.length - 4)).drop 1
    let chk0 := k.drop (k.length - 4)
    if addrbyte ≠ version then .error .versionByte
    else
      let chk1 := (dhash (addrbyte ++ data)).take 4
      if chk0 ≠ chk1 then .error .b58Checksum
      else .ok data

/-! ## Wire primitives (`var_int`, `op_push`) and script opcodes -/

def OP_RETURN : List Nat := [0x6a]
def OP_DUP : List Nat := [0x76]
def OP_HASH160 : List Nat := [0xa9]
def OP_EQUALVERIFY : List Nat := [0x88]
def OP_CHECKSIG : List Nat := [0xac]
def OP_1 : List Nat := [0x51]
def OP_2 : List Nat := [0x52]
def OP_CHECKMULTISIG : List Nat := [0xae]

/-- `var_int(i)` (`bitcoin.py:208`). -/
def var_int (i : Nat) : List Nat :=
  if i < 0xfd then toBytesLE 1 i
  else if i ≤ 0xffff then [0xfd] ++ toBytesLE 2 i
  else if i ≤ 0xffffffff then [0xfe] ++ toBytesLE 4 i
  else [0xff] ++ toBytesLE 8 i

/-- `op_push(i)` (`bitcoin.py:218`). -/
def op_push (i : Nat) : List Nat :=
  if i < 0x4c then toBytesLE 1 i
  else if i ≤ 0xff then [0x4c] ++ toBytesLE 1 i
  else if i ≤ 0xffff then [0x4d] ++ toBytesLE 2 i
  else [0x4e] ++ toBytesLE 4 i

/-! ## Configuration constants

Modelled from the spec: `lib/config.py` is imported by `lib/bitcoin.py`
but is not among the sources.  The spec fixes the address version to one
byte (mainnet), fixes the smallest-unit scale, and describes the dust
floors and the fixed OP_RETURN carry value only as positive constants;
the numeric values below are representative and no claim's status
depends on them beyond their positivity. -/

/-- Modelled from the spec: `config.ADDRESSVERSION`, the expected network
version byte (mainnet `0x00`). -/
def ADDRESSVERSION : List Nat := [0]

/-- Modelled from the spec: `config.UNIT`, satoshis per BTC. -/
def UNIT : Nat := 100000000

/-- Modelled from the spec: `config.REGULAR_DUST_SIZE`, the dust floor for
plain pay-to-address destination outputs. -/
def REGULAR_DUST_SIZE : Nat := 5430

/-- Modelled from the spec: `config.MULTISIG_DUST_SIZE`, the dust floor for
destination outputs of multisig-carrying transactions, and the value given
to each multisig data output. -/
def MULTISIG_DUST_SIZE : Nat := 7800

/-- Modelled from the spec: `config.OP_RETURN_VALUE`, the fixed value given
to an OP_RETURN data output. -/
def OP_RETURN_VALUE : Nat := 5000

/-! ## The `multisig` argument and key environment -/

/-- The `multisig` parameter of `transaction`/`serialise`: Python `False`
(null-data embedding), `True` (disguised multisig, source public key
derived from the wallet private key), or a public-key string. -/
inductive Multisig : Type
  | nullData : Multisig
  | derived : Multisig
  | pub : List Nat → Multisig
  deriving DecidableEq, Repr

/-- Python truthiness of the `multisig` value (`if multisig:`): `False` is
falsy, `True` is truthy, a string is truthy iff non-empty. -/
def Multisig.truthy : Multisig → Bool
  | .nullData => false
  | .derived => true
  | .pub s => !s.isEmpty

/-- `isinstance(multisig, str)`. -/
def Multisig.isStr : Multisig → Bool
  | .pub _ => true
  | _ => false

/-- Modelled from the spec: the elliptic-curve key material that
`serialise` obtains from outside the source under `src/` — `pubFromStr`
stands for `public_pair_to_sec(parse_as_public_pair(multisig))` (pycoin
library code), `walletPub` for the sec public key derived from the
`rpc('dumpprivkey', source)` response, and `unittestPub` for the sec
public key derived from the hard-coded unit-test WIF at `bitcoin.py:282`. -/
structure KeyEnv : Type where
  pubFromStr : List Nat → List Nat
  walletPub : List Nat
  unittestPub : List Nat

/-- The source public key used by the multisig data-output branch of
`serialise` (`bitcoin.py:276`–`289`). -/
def sourcePubkeyFor (env : KeyEnv) (multisig : Multisig) (unittest : Bool) : List Nat :=
  match multisig with
  | .pub s => env.pubFromStr s
  | _ => if unittest then env.unittestPub else env.walletPub

/-! ## Coins and transaction serialisation -/

/-- An unspent coin as returned by `listunspent` (the fields `serialise`
and `get_inputs` read).  `txid` holds the transaction id as bytes (the
Python field is its hex string, unhexlified by `serialise`);
`scriptPubKey` holds the bytes `str.encode` produces from the Python
field; `amount` holds `round(coin['amount'] * config.UNIT)`, the
satoshi value the accumulation loop of `get_inputs` works with. -/
structure Coin : Type where
  address : List Char
  txid : List Nat
  vout : Nat
  scriptPubKey : List Nat
  amount : Nat
  deriving DecidableEq, Repr

/-- The per-input bytes of `serialise` (`bitcoin.py:235`–`243`):
reversed txid, 4-byte vout, script length, script, `0xffffffff` sequence. -/
def txInBytes (txin : Coin) : List Nat :=
  txin.txid.reverse ++ toBytesLE 4 txin.vout
    ++ var_int txin.scriptPubKey.length ++ txin.scriptPubKey
    ++ List.replicate 4 0xff

/-- The pay-to-pubkey-hash script of destination and change outputs
(`bitcoin.py:261`–`266`; note the source hardcodes `op_push(20)`
whatever the decoded hash length is). -/
def p2pkhScript (pubkeyhash : List Nat) : List Nat :=
  OP_DUP ++ OP_HASH160 ++ op_push 20 ++ pubkeyhash ++ OP_EQUALVERIFY ++ OP_CHECKSIG

/-- The OP_RETURN data script (`bitcoin.py:304`–`306`). -/
def opReturnScript (chunk : List Nat) : List Nat :=
  OP_RETURN ++ op_push chunk.length ++ chunk

/-- The padded fake public key carrying a data chunk (`bitcoin.py:292`–`294`). -/
def dataPubkey (chunk : List Nat) : List Nat :=
  [chunk.length] ++ chunk ++ List.replicate (33 - 1 - chunk.length) 0

/-- The 1-of-2 multisig data script (`bitcoin.py:296`–`302`). -/
def multisigScript (source_pubkey data_pubkey : List Nat) : List Nat :=
  OP_1 ++ op_push source_pubkey.length ++ source_pubkey
    ++ op_push data_pubkey.length ++ data_pubkey
    ++ OP_2 ++ OP_CHECKMULTISIG

/-- One data output of `serialise` (`bitcoin.py:271`–`308`): value, script
length, script; the `assert pad_length >= 0` at `bitcoin.py:293` becomes
the `assertPadLength` error. -/
def dataOutputBytes (env : KeyEnv) (multisig : Multisig) (unittest : Bool)
    (value : Nat) (chunk : List Nat) : Except Err (List Nat) :=
  if multisig.truthy then
    let source_pubkey := sourcePubkeyFor env multisig unittest
    if 33 - 1 < chunk.length then .error .assertPadLength
    else
      let script := multisigScript source_pubkey (dataPubkey chunk)
      .ok (toBytesLE 8 value ++ var_int script.length ++ script)
  else
    let script := opReturnScript chunk
    .ok (toBytesLE 8 value ++ var_int script.length ++ script)

/-- A destination or change output of `serialise` (`bitcoin.py:257`–`268`
and `311`–`322`): decode the address, then value, script length, p2pkh
script. -/
def addressOutputBytes (address : List Char) (value : Nat) : Except Err (List Nat) := do
  let pubkeyhash ← base58_decode address ADDRESSVERSION
  let script := p2pkhScript pubkeyhash
  pure (toBytesLE 8 value ++ var_int script.length ++ script)

/-- `serialise(inputs, destination_output, data_output, change_output,
source, multisig)` (`bitcoin.py:228`).  The `config.PREFIX` unit-test
check and the `rpc('dumpprivkey')` call of the derived-multisig branch
are modelled by the `unittest` flag and the `env` record; the bytes the
network call contributes enter through `env.walletPub`. -/
def serialise (inputs : List Coin) (destination_output : Option (List Char × Nat))
    (data_output : Option (List (List Nat) × Nat))
    (change_output : Option (List Char × Nat)) (source : List Char)
    (multisig : Multisig) (unittest : Bool) (env : KeyEnv) :
    Except Err (List Nat) := do
  let data_array := match data_output with
    | some (arr, _) => arr
    | none => []
  let data_value := match data_output with
    | some (_, value) => value
    | none => 0
  let n := (if destination_output.isSome then 1 else 0) + data_array.length
    + (if change_output.isSome then 1 else 0)
  let destPart ← match destination_output with
    | some (address, value) => addressOutputBytes address value
    | none => pure []
  let dataParts ← data_array.mapM (dataOutputBytes env multisig unittest data_value)
  let chgPart ← match change_output with
    | some (address, value) => addressOutputBytes address value
    | none => pure []
  pure (toBytesLE 4 1 ++ var_int inputs.length ++ (inputs.map txInBytes).flatten
    ++ var_int n ++ destPart ++ dataParts.flatten ++ chgPart ++ toBytesLE 4 0)

/-! ## Coin selection (`get_inputs`) and assembly (`transaction`) -/

/-- Network calls observable in a run (the trace component of the model). -/
inductive Rpc : Type
  | validateaddress : Rpc
  | listunspent : Rpc
  | blockchainUnspent : Rpc
  | dumpprivkey : Rpc
  deriving DecidableEq, Repr

/-- The responses the environment would give to the network calls a build
performs: `ismine` is `rpc('validateaddress', [source])['ismine']`, and
`coins` the unspent-coin list (`rpc('listunspent')` in live mode, the
`listunspent.test.json` fixture in unit-test mode). -/
structure Oracle : Type where
  ismine : Bool
  coins : List Coin

/-- The accumulation loop of `get_inputs` (`bitcoin.py:341`–`347`):
append each coin, add its amount, return as soon as the running total
reaches the target; `none` when the list is exhausted first (`None, None`). -/
def coinAccum : List Coin → List Coin → Nat → Nat → Option (List Coin × Nat)
  | [], _, _, _ => none
  | c :: rest, acc, tot, target =>
    let acc2 := acc ++ [c]
    let tot2 := tot + c.amount
    if target ≤ tot2 then some (acc2, tot2) else coinAccum rest acc2 tot2 target

/-- `get_inputs(source, total_btc_out, unittest)` (`bitcoin.py:327`).
In live mode the source-ownership probe is one `validateaddress` call and
the coin fetch one `listunspent` call; the not-owned branch would
evaluate the undefined name `address` (`bitcoin.py:334`), modelled as
`nameError` (with `config.TESTNET` modelled as `false`, the testnet
rejection before it is not reached).  Unit-test mode reads a fixture file
and performs no network call. -/
def get_inputs (source : List Char) (total_btc_out : Nat) (unittest : Bool)
    (oracle : Oracle) : Except Err (Option (List Coin × Nat)) × List Rpc :=
  let unspent := oracle.coins.filter (fun coin => coin.address = source)
  if unittest then (.ok (coinAccum unspent [] 0 total_btc_out), [])
  else if oracle.ismine then
    (.ok (coinAccum unspent [] 0 total_btc_out), [.validateaddress, .listunspent])
  else (.error .nameError, [.validateaddress])

/-- The `tx_info` tuple handed to `transaction` (`bitcoin.py:351`).
A Python `None`/empty destination is `none`; absent data is `[]`. -/
structure TxInfo : Type where
  source : List Char
  destination : Option (List Char)
  btc_amount : Option Nat
  fee : Nat
  data : List Nat

/-- Python truthiness of the optional destination (None and the empty
string are falsy). -/
def destTruthy : Option (List Char) → Bool
  | none => false
  | some d => !d.isEmpty

/-- `transaction(tx_info, multisig, unittest)` (`bitcoin.py:350`): address
validation, wallet-ownership check, dust check (with the `assert not
btc_amount` of `bitcoin.py:380` as `assertNoAmount`), payload chunking
(with the single-OP_RETURN `assert` of `bitcoin.py:392` as
`assertSingleChunk`), totals, coin selection, output construction and
serialisation.  The first component is the result (the Python function
returns the serialised bytes hex-encoded; the model returns the bytes),
the second the trace of network calls made up to that point.  -/
def transaction (tx : TxInfo) (multisig : Multisig) (unittest : Bool)
    (oracle : Oracle) (env : KeyEnv) : Except Err (List Nat) × List Rpc :=
  -- Validate addresses (`bitcoin.py:356`-`362`): pure, no network.
  let srcBad := tx.source ≠ [] ∧ (base58_decode tx.source ADDRESSVERSION).isOk = false
  let dstBad := destTruthy tx.destination
    ∧ (base58_decode (tx.destination.getD []) ADDRESSVERSION).isOk = false
  if srcBad ∨ dstBad then (.error .invalidAddressError, [])
  else
    -- Wallet-ownership check (`bitcoin.py:364`-`367`).
    let ownTrace : List Rpc :=
      if unittest = false ∧ multisig.isStr = false then [.validateaddress] else []
    if unittest = false ∧ multisig.isStr = false ∧ oracle.ismine = false then
      (.error .invalidAddressError, ownTrace)
    else
      -- Dust check (`bitcoin.py:369`-`380`).
      let dustFloor := if multisig.truthy then MULTISIG_DUST_SIZE else REGULAR_DUST_SIZE
      let amountR : Option Nat := if destTruthy tx.destination
        then some ((tx.btc_amount).getD dustFloor) else tx.btc_amount
      if destTruthy tx.destination ∧ amountR.getD 0 < dustFloor then
        (.error .transactionError, ownTrace)
      else if destTruthy tx.destination = false ∧ amountR.getD 0 ≠ 0 then
        (.error .assertNoAmount, ownTrace)
      else
        -- Chunking (`bitcoin.py:383`-`394`).
        let data_array := if tx.data.isEmpty then []
          else if multisig.truthy then chunksB (33 - 1) tx.data.length tx.data
          else chunksB 80 tx.data.length tx.data
        if tx.data.isEmpty = false ∧ multisig.truthy = false ∧ data_array.length ≠ 1 then
          (.error .assertSingleChunk, ownTrace)
        else
          -- Totals (`bitcoin.py:397`-`401`).
          let data_value := if multisig.truthy then MULTISIG_DUST_SIZE else OP_RETURN_VALUE
          let total_btc_out := tx.fee + data_value * data_array.length
            + (if destTruthy tx.destination then amountR.getD 0 else 0)
          -- Coin selection (`bitcoin.py:404`-`406`).
          match get_inputs tx.source total_btc_out unittest oracle with
          | (.error e, tr) => (.error e, ownTrace ++ tr)
          | (.ok none, tr) =>
            (.error (.balanceError tx.source total_btc_out), ownTrace ++ tr)
          | (.ok (some (inputs, total_btc_in)), tr) =>
            -- Outputs (`bitcoin.py:409`-`415`).
            let destination_output := if destTruthy tx.destination
              then some (tx.destination.getD [], amountR.getD 0) else none
            let data_output := if tx.data.isEmpty then none
              else some (data_array, data_value)
            let change_amount := total_btc_in - total_btc_out
            let change_output := if change_amount ≠ 0
              then some (tx.source, change_amount) else none
            (serialise inputs destination_output data_output change_output
              tx.source multisig unittest env, ownTrace ++ tr)

/-! ## Wire-format parser (the inverse reading of the raw-transaction
byte layout, used to state what "the output list of the serialized
transaction" is) -/

/-- Read exactly `n` bytes. -/
def readN (n : Nat) (bs : List Nat) : Option (List Nat × List Nat) :=
  if n ≤ bs.length then some (bs.take n, bs.drop n) else none

/-- Little-endian value of a byte list. -/
def leVal (l : List Nat) : Nat := l.foldr (fun b acc => acc * 256 + b) 0

/-- Read an `n`-byte little-endian integer. -/
def readLE (n : Nat) (bs : List Nat) : Option (Nat × List Nat) :=
  (readN n bs).map (fun p => (leVal p.1, p.2))

/-- Read a Bitcoin variable-length integer. -/
def readVarint : List Nat → Option (Nat × List Nat)
  | [] => none
  | b :: r =>
    if b < 0xfd then some (b, r)
    else if b = 0xfd then readLE 2 r
    else if b = 0xfe then readLE 4 r
    else readLE 8 r

/-- Parse one input: 32-byte txid, 4-byte vout, script, 4-byte sequence. -/
def readInput (bs : List Nat) : Option ((List Nat × Nat × List Nat) × List Nat) := do
  let (txid, r) ← readN 32 bs
  let (vout, r) ← readLE 4 r
  let (slen, r) ← readVarint r
  let (script, r) ← readN slen r
  let (_, r) ← readN 4 r
  pure ((txid, vout, script), r)

/-- Parse `k` inputs. -/
def readInputs : Nat → List Nat → Option (List (List Nat × Nat × List Nat) × List Nat)
  | 0, bs => some ([], bs)
  | k + 1, bs => do
    let (i, r) ← readInput bs
    let (is, r2) ← readInputs k r
    pure (i :: is, r2)

/-- Parse one output: 8-byte little-endian value, script length, script. -/
def readOutput (bs : List Nat) : Option ((Nat × List Nat) × List Nat) := do
  let (value, r) ← readLE 8 bs
  let (slen, r) ← readVarint r
  let (script, r) ← readN slen r
  pure ((value, script), r)

/-- Parse `k` outputs. -/
def readOutputs : Nat → List Nat → Option (List (Nat × List Nat) × List Nat)
  | 0, bs => some ([], bs)
  | k + 1, bs => do
    let (o, r) ← readOutput bs
    let (os, r2) ← readOutputs k r
    pure (o :: os, r2)

/-- Parse a whole raw transaction, returning its output list as
`(value, script)` pairs; fails unless version is 1, lock time is 0, and
the bytes are consumed exactly. -/
def parseTxOutputs (bs : List Nat) : Option (List (Nat × List Nat)) := do
  let (v, r) ← readLE 4 bs
  let (nin, r) ← readVarint r
  let (_, r) ← readInputs nin r
  let (nout, r) ← readVarint r
  let (outs, r) ← readOutputs nout r
  let (lt, r) ← readLE 4 r
  if v = 1 ∧ lt = 0 ∧ r = [] then pure outs else none

/-- The encoding of an output list as laid down by `serialise` (one
`(value, script)` pair after another: 8-byte value, script length,
script). -/
def outputsEnc (outs : List (Nat × List Nat)) : List Nat :=
  (outs.map (fun o => toBytesLE 8 o.1 ++ var_int o.2.length ++ o.2)).flatten

/-- Well-formedness of a coin as serialised input: 32-byte txid,
representable vout and script length (what `listunspent` data satisfies). -/
def coinWF (c : Coin) : Prop :=
  c.txid.length = 32 ∧ c.vout < 2 ^ 32 ∧ c.scriptPubKey.length < 2 ^ 64

instance coinWFDec : DecidablePred coinWF := fun c => by
  unfold coinWF; infer_instance

/-! ## Parser round-trip lemmas -/

theorem toBytesLE_zero (v : Nat) : toBytesLE 0 v = [] := rfl

theorem toBytesLE_succ (k v : Nat) :
    toBytesLE (k + 1) v = v % 256 :: toBytesLE k (v / 256) := by
  simp [toBytesLE, List.range_succ_eq_map, List.map_map]
  intro a _
  rw [Nat.div_div_eq_div_mul, pow_succ, mul_comm (256 ^ a) 256]

theorem toBytesLE_length (k v : Nat) : (toBytesLE k v).length = k := by
  simp [toBytesLE]

theorem leVal_cons (b : Nat) (l : List Nat) : leVal (b :: l) = leVal l * 256 + b := rfl

theorem leVal_toBytesLE (k v : Nat) (h : v < 256 ^ k) : leVal (toBytesLE k v) = v := by
  induction k generalizing v with
  | zero =>
    have : v = 0 := by simpa using h
    simp [this, toBytesLE_zero, leVal]
  | succ k ih =>
    rw [toBytesLE_succ, leVal_cons, ih (v / 256) ?_]
    · omega
    · rw [Nat.div_lt_iff_lt_mul (by norm_num)]
      calc v < 256 ^ (k + 1) := h
        _ = 256 ^ k * 256 := by ring

theorem readN_exact (n : Nat) (xs r : List Nat) (h : xs.length = n) :
    readN n (xs ++ r) = some (xs, r) := by
  subst h; simp [readN]

theorem readLE_exact (n v : Nat) (r : List Nat) (h : v < 256 ^ n) :
    readLE n (toBytesLE n v ++ r) = some (v, r) := by
  simp [readLE, readN_exact n _ r (toBytesLE_length n v), leVal_toBytesLE n v h]

theorem readVarint_varint (n : Nat) (r : List Nat) (h : n < 2 ^ 64) :
    readVarint (var_int n ++ r) = some (n, r) := by
  unfold var_int
  by_cases h1 : n < 0xfd
  · have : toBytesLE 1 n = [n] := by
      rw [toBytesLE_succ, toBytesLE_zero, Nat.mod_eq_of_lt (by omega)]
    simp [h1, this, readVarint]
  · by_cases h2 : n ≤ 0xffff
    · simp [h1, h2, readVarint, readLE_exact 2 n r (by norm_num; omega)]
    · by_cases h3 : n ≤ 0xffffffff
      · simp [h1, h2, h3, readVarint, readLE_exact 4 n r (by norm_num; omega)]
      · simp [h1, h2, h3, readVarint, readLE_exact 8 n r (by norm_num; omega)]

theorem readInput_txIn (c : Coin) (h : coinWF c) (r : List Nat) :
    readInput (txInBytes c ++ r) = some ((c.txid.reverse, c.vout, c.scriptPubKey), r) := by
  obtain ⟨h32, hv, hs⟩ := h
  simp only [txInBytes, readInput, List.append_assoc]
  rw [readN_exact 32 c.txid.reverse _ (by simp [h32])]
  simp only [Option.bind_eq_bind, Option.some_bind]
  rw [readLE_exact 4 c.vout _ (by norm_num; omega)]
  simp only [Option.some_bind]
  rw [readVarint_varint _ _ (by omega)]
  simp only [Option.some_bind]
  rw [readN_exact _ c.scriptPubKey _ rfl]
  simp only [Option.some_bind]
  rw [readN_exact 4 (List.replicate 4 0xff) _ (by simp)]
  simp

theorem readInputs_enc (cs : List Coin) (r : List Nat) (h : ∀ c ∈ cs, coinWF c) :
    readInputs cs.length ((cs.map txInBytes).flatten ++ r) =
      some (cs.map (fun c => (c.txid.reverse, c.vout, c.scriptPubKey)), r) := by
  induction cs with
  | nil => simp [readInputs]
  | cons c cs ih =>
    simp only [List.map_cons, List.flatten_cons, List.length_cons, List.append_assoc,
      readInputs, Option.bind_eq_bind]
    rw [readInput_txIn c (h c (by simp)) _]
    simp only [Option.some_bind]
    rw [ih (fun x hx => h x (by simp [hx]))]
    simp

theorem readOutput_enc (v : Nat) (s r : List Nat) (hv : v < 2 ^ 64) (hs : s.length < 2 ^ 64) :
    readOutput (toBytesLE 8 v ++ (var_int s.length ++ (s ++ r))) = some ((v, s), r) := by
  simp only [readOutput, Option.bind_eq_bind]
  rw [readLE_exact 8 v _ (by norm_num; omega)]
  simp only [Option.some_bind]
  rw [readVarint_varint _ _ hs]
  simp only [Option.some_bind]
  rw [readN_exact s.length s _ rfl]
  simp

theorem readOutputs_enc (outs : List (Nat × List Nat)) (r : List Nat)
    (h : ∀ o ∈ outs, o.1 < 2 ^ 64 ∧ o.2.length < 2 ^ 64) :
    readOutputs outs.length (outputsEnc outs ++ r) = some (outs, r) := by
  induction outs with
  | nil => simp [readOutputs, outputsEnc]
  | cons o os ih =>
    simp only [outputsEnc, List.map_cons, List.flatten_cons, List.length_cons,
      List.append_assoc, readOutputs, Option.bind_eq_bind]
    rw [readOutput_enc o.1 o.2 _ (h o (by simp)).1 (h o (by simp)).2]
    simp only [Option.some_bind]
    have := ih (fun x hx => h x (by simp [hx]))
    simp only [outputsEnc, List.append_assoc] at this
    rw [this]
    simp

theorem parseTx_roundtrip (cs : List Coin) (outs : List (Nat × List Nat))
    (hcs : ∀ c ∈ cs, coinWF c) (hlen : cs.length < 2 ^ 64)
    (houts : ∀ o ∈ outs, o.1 < 2 ^ 64 ∧ o.2.length < 2 ^ 64) (hn : outs.length < 2 ^ 64) :
    parseTxOutputs (toBytesLE 4 1 ++ var_int cs.length ++ (cs.map txInBytes).flatten
      ++ var_int outs.length ++ outputsEnc outs ++ toBytesLE 4 0) = some outs := by
  simp only [parseTxOutputs, List.append_assoc, Option.bind_eq_bind]
  rw [readLE_exact 4 1 _ (by norm_num)]
  simp only [Option.some_bind]
  rw [readVarint_varint _ _ hlen]
  simp only [Option.some_bind]
  rw [readInputs_enc cs _ hcs]
  simp only [Option.some_bind]
  rw [readVarint_varint _ _ hn]
  simp only [Option.some_bind]
  rw [readOutputs_enc outs _ houts]
  simp only [Option.some_bind]
  rw [show toBytesLE 4 0 = toBytesLE 4 0 ++ [] from (List.append_nil _).symm,
    readLE_exact 4 0 [] (by norm_num)]
  simp

/-! ## Serialisation structure lemmas -/

/-- The script a data output carries: the OP_RETURN template, or the
disguised-multisig template, by embedding mode (the two branches of
`bitcoin.py:275`–`306`). -/
def dataScript (env : KeyEnv) (multisig : Multisig) (unittest : Bool) (chunk : List Nat) : List Nat :=
  if multisig.truthy then multisigScript (sourcePubkeyFor env multisig unittest) (dataPubkey chunk)
  else opReturnScript chunk

theorem dataOutputBytes_ok (env : KeyEnv) (ms : Multisig) (ut : Bool) (v : Nat) (chunk : List Nat)
    (h : ms.truthy = true → chunk.length ≤ 32) :
    dataOutputBytes env ms ut v chunk =
      .ok (toBytesLE 8 v ++ var_int (dataScript env ms ut chunk).length
        ++ dataScript env ms ut chunk) := by
  unfold dataOutputBytes dataScript
  cases hms : ms.truthy with
  | false => simp [hms]
  | true => simp [hms, Nat.not_lt.2 (h hms)]

theorem mapM_dataOutput (env : KeyEnv) (ms : Multisig) (ut : Bool) (dval : Nat)
    (arr : List (List Nat)) (h : ms.truthy = true → ∀ ch ∈ arr, ch.length ≤ 32) :
    arr.mapM (dataOutputBytes env ms ut dval) =
      .ok (arr.map (fun ch => toBytesLE 8 dval ++ var_int (dataScript env ms ut ch).length
        ++ dataScript env ms ut ch)) := by
  induction arr with
  | nil => rfl
  | cons a l ih =>
    rw [List.mapM_cons, dataOutputBytes_ok env ms ut dval a (fun ht => h ht a (by simp)),
      ih (fun ht x hx => h ht x (by simp [hx]))]
    rfl

/-- `serialise` with all three outputs present produces exactly the wire
bytes of the ordered output list `[Destination, DataEmbed..., Change]`. -/
theorem serialise_all (inputs : List Coin) (da : List Char) (dv' : Nat)
    (arr : List (List Nat)) (dval : Nat) (ca : List Char) (cv : Nat)
    (src : List Char) (ms : Multisig) (ut : Bool) (env : KeyEnv) (dh sh : List Nat)
    (hd : base58_decode da ADDRESSVERSION = .ok dh)
    (hc : base58_decode ca ADDRESSVERSION = .ok sh)
    (hch : ms.truthy = true → ∀ ch ∈ arr, ch.length ≤ 32) :
    serialise inputs (some (da, dv')) (some (arr, dval)) (some (ca, cv)) src ms ut env =
      .ok (toBytesLE 4 1 ++ var_int inputs.length ++ (inputs.map txInBytes).flatten
        ++ var_int (1 + arr.length + 1)
        ++ outputsEnc ([(dv', p2pkhScript dh)]
            ++ arr.map (fun ch => (dval, dataScript env ms ut ch))
            ++ [(cv, p2pkhScript sh)])
        ++ toBytesLE 4 0) := by
  simp only [serialise, addressOutputBytes, hd, hc, mapM_dataOutput env ms ut dval arr hch,
    outputsEnc, List.map_append, List.map_map, List.map_cons,
    List.map_nil, List.flatten_cons, List.flatten_nil, Option.isSome]
  simp [bind, Except.bind, pure, Except.pure, Function.comp, List.append_assoc]
  rfl

/-- `serialise` with no destination output: the wire bytes of
`[DataEmbed..., Change]`. -/
theorem serialise_nodest (inputs : List Coin)
    (arr : List (List Nat)) (dval : Nat) (ca : List Char) (cv : Nat)
    (src : List Char) (ms : Multisig) (ut : Bool) (env : KeyEnv) (sh : List Nat)
    (hc : base58_decode ca ADDRESSVERSION = .ok sh)
    (hch : ms.truthy = true → ∀ ch ∈ arr, ch.length ≤ 32) :
    serialise inputs none (some (arr, dval)) (some (ca, cv)) src ms ut env =
      .ok (toBytesLE 4 1 ++ var_int inputs.length ++ (inputs.map txInBytes).flatten
        ++ var_int (0 + arr.length + 1)
        ++ outputsEnc (arr.map (fun ch => (dval, dataScript env ms ut ch))
            ++ [(cv, p2pkhScript sh)])
        ++ toBytesLE 4 0) := by
  simp only [serialise, addressOutputBytes, hc, mapM_dataOutput env ms ut dval arr hch,
    outputsEnc, List.map_append, List.map_map, List.map_cons,
    List.map_nil, List.flatten_cons, List.flatten_nil, Option.isSome]
  simp [bind, Except.bind, pure, Except.pure, Function.comp, List.append_assoc]
  rfl

/-! ## Chunking lemmas -/

theorem chunksB_of_le (n : Nat) (l : List α) (h1 : l ≠ []) (h2 : l.length ≤ n) :
    chunksB n l.length l = [l] := by
  cases l with
  | nil => exact absurd rfl h1
  | cons a t =>
    simp only [List.length_cons, chunksB, List.isEmpty_cons, Bool.false_eq_true, if_false]
    rw [List.take_of_length_le (by simpa using h2), List.drop_of_length_le (by simpa using h2)]
    cases t.length <;> simp [chunksB]

theorem chunksB_len_le (n fuel : Nat) (hn : 0 < n) :
    ∀ l : List α, ∀ p ∈ chunksB n fuel l, p.length ≤ n ∧ p ≠ [] := by
  induction fuel with
  | zero => intro l p hp; simp [chunksB] at hp
  | succ fuel ih =>
    intro l p hp
    cases l with
    | nil => simp [chunksB] at hp
    | cons a t =>
      simp only [chunksB, List.isEmpty_cons, Bool.false_eq_true, if_false,
        List.mem_cons] at hp
      rcases hp with h | h
      · subst h
        refine ⟨by simpa using List.length_take_le n (a :: t), ?_⟩
        cases n with
        | zero => omega
        | succ m => simp [List.take_succ_cons]
      · exact ih _ p h

theorem chunksB_flatten (n : Nat) (hn : 0 < n) :
    ∀ fuel : Nat, ∀ l : List α, l.length ≤ fuel → (chunksB n fuel l).flatten = l := by
  intro fuel
  induction fuel with
  | zero =>
    intro l hl
    rw [List.length_eq_zero.1 (Nat.le_zero.1 hl)]
    simp [chunksB]
  | succ fuel ih =>
    intro l hl
    cases l with
    | nil => simp [chunksB]
    | cons a t =>
      simp only [chunksB, List.isEmpty_cons, Bool.false_eq_true, if_false, List.flatten_cons]
      rw [ih ((a :: t).drop n)
        (by rw [List.length_drop]; simp only [List.length_cons]; simp at hl; omega)]
      exact List.take_append_drop n (a :: t)

/-! ## Transaction-assembly reduction lemmas -/

/-- A build with destination, payload and sufficient coins reaches
`serialise` with destination, data and change outputs all present
(`bitcoin.py:350`-`420` step by step). -/
theorem transaction_serialise_dest (tx : TxInfo) (ms : Multisig) (ut : Bool)
    (oracle : Oracle) (env : KeyEnv) (da : List Char) (sh dh : List Nat) (amt : Nat)
    (data_array : List (List Nat)) (dval total : Nat) (ins : List Coin) (totin : Nat)
    (h_dst : tx.destination = some da) (h_da : da ≠ [])
    (h_srcdec : base58_decode tx.source ADDRESSVERSION = .ok sh)
    (h_dadec : base58_decode da ADDRESSVERSION = .ok dh)
    (h_amt : tx.btc_amount = some amt)
    (h_floor : (if ms.truthy = true then MULTISIG_DUST_SIZE else REGULAR_DUST_SIZE) ≤ amt)
    (h_own : ut = true ∨ oracle.ismine = true)
    (h_data : tx.data ≠ [])
    (h_80 : ms.truthy = false → tx.data.length ≤ 80)
    (h_arr : data_array = if ms.truthy = true then chunksB 32 tx.data.length tx.data
      else chunksB 80 tx.data.length tx.data)
    (h_dval : dval = if ms.truthy = true then MULTISIG_DUST_SIZE else OP_RETURN_VALUE)
    (h_total : total = tx.fee + dval * data_array.length + amt)
    (h_sel : coinAccum (oracle.coins.filter (fun c => c.address = tx.source)) [] 0 total
      = some (ins, totin))
    (h_chg : total < totin) :
    (transaction tx ms ut oracle env).1 =
      serialise ins (some (da, amt)) (some (data_array, dval))
        (some (tx.source, totin - total)) tx.source ms ut env := by
  have hdt : destTruthy tx.destination = true := by
    rw [h_dst]; simp [destTruthy, h_da]
  have hde : tx.data.isEmpty = false := by simpa using h_data
  have hchg0 : totin - total ≠ 0 := by omega
  subst h_total; subst h_dval; subst h_arr
  cases hms : ms.truthy with
  | false =>
    have h1 : chunksB 80 tx.data.length tx.data = [tx.data] :=
      chunksB_of_le 80 tx.data h_data (h_80 hms)
    have hfl : ¬ amt < REGULAR_DUST_SIZE := by
      rw [hms] at h_floor; simpa using h_floor
    simp only [hms, Bool.false_eq_true, if_false, h1, List.length_cons, List.length_nil,
      Nat.zero_add, Nat.mul_one] at h_sel hchg0
    rcases h_own with hut | hmine
    · subst hut
      simp [transaction, get_inputs, hdt, h_dst, h_da, h_amt, h_srcdec, h_dadec, hms, hde,
        h1, h_sel, hchg0, destTruthy, Except.isOk, Except.toBool, hfl]
    · cases ut <;>
        simp [transaction, get_inputs, hdt, h_dst, h_da, h_amt, h_srcdec, h_dadec, hms, hde,
          hmine, h1, h_sel, hchg0, destTruthy, Except.isOk, Except.toBool, hfl]
  | true =>
    have hfl : ¬ amt < MULTISIG_DUST_SIZE := by
      rw [hms] at h_floor; simpa using h_floor
    simp only [hms, if_true] at h_sel hchg0
    rcases h_own with hut | hmine
    · subst hut
      simp [transaction, get_inputs, hdt, h_dst, h_da, h_amt, h_srcdec, h_dadec, hms, hde,
        h_sel, hchg0, destTruthy, Except.isOk, Except.toBool, hfl]
    · cases ut <;>
        simp [transaction, get_inputs, hdt, h_dst, h_da, h_amt, h_srcdec, h_dadec, hms, hde,
          hmine, h_sel, hchg0, destTruthy, Except.isOk, Except.toBool, hfl]


/-- A build with no (truthy) destination, falsy amount, payload and
sufficient coins reaches `serialise` with data and change outputs. -/
theorem transaction_serialise_nodest (tx : TxInfo) (ms : Multisig) (ut : Bool)
    (oracle : Oracle) (env : KeyEnv) (sh : List Nat)
    (data_array : List (List Nat)) (dval total : Nat) (ins : List Coin) (totin : Nat)
    (h_dst : destTruthy tx.destination = false)
    (h_srcdec : base58_decode tx.source ADDRESSVERSION = .ok sh)
    (h_amt : tx.btc_amount = none ∨ tx.btc_amount = some 0)
    (h_own : ut = true ∨ oracle.ismine = true)
    (h_data : tx.data ≠ [])
    (h_80 : ms.truthy = false → tx.data.length ≤ 80)
    (h_arr : data_array = if ms.truthy = true then chunksB 32 tx.data.length tx.data
      else chunksB 80 tx.data.length tx.data)
    (h_dval : dval = if ms.truthy = true then MULTISIG_DUST_SIZE else OP_RETURN_VALUE)
    (h_total : total = tx.fee + dval * data_array.length)
    (h_sel : coinAccum (oracle.coins.filter (fun c => c.address = tx.source)) [] 0 total
      = some (ins, totin))
    (h_chg : total < totin) :
    (transaction tx ms ut oracle env).1 =
      serialise ins none (some (data_array, dval))
        (some (tx.source, totin - total)) tx.source ms ut env := by
  have hde : tx.data.isEmpty = false := by simpa using h_data
  have hchg0 : totin - total ≠ 0 := by omega
  have hamt0 : tx.btc_amount.getD 0 = 0 := by rcases h_amt with h | h <;> simp [h]
  subst h_total; subst h_dval; subst h_arr
  cases hms : ms.truthy with
  | false =>
    have h1 : chunksB 80 tx.data.length tx.data = [tx.data] :=
      chunksB_of_le 80 tx.data h_data (h_80 hms)
    simp only [hms, Bool.false_eq_true, if_false, h1, List.length_cons, List.length_nil,
      Nat.zero_add, Nat.mul_one] at h_sel hchg0
    rcases h_own with hut | hmine
    · subst hut
      simp [transaction, get_inputs, h_dst, hamt0, h_srcdec, hms, hde,
        h1, h_sel, hchg0, Except.isOk, Except.toBool]
    · cases ut <;>
        simp [transaction, get_inputs, h_dst, hamt0, h_srcdec, hms, hde,
          hmine, h1, h_sel, hchg0, Except.isOk, Except.toBool]
  | true =>
    simp only [hms, if_true] at h_sel hchg0
    rcases h_own with hut | hmine
    · subst hut
      simp [transaction, get_inputs, h_dst, hamt0, h_srcdec, hms, hde,
        h_sel, hchg0, Except.isOk, Except.toBool]
    · cases ut <;>
        simp [transaction, get_inputs, h_dst, hamt0, h_srcdec, hms, hde,
          hmine, h_sel, hchg0, Except.isOk, Except.toBool]

theorem p2pkhScript_length (pkh : List Nat) (h : pkh.length = 20) :
    (p2pkhScript pkh).length = 25 := by
  simp [p2pkhScript, OP_DUP, OP_HASH160, OP_EQUALVERIFY, OP_CHECKSIG, op_push, h]
  rfl

theorem chunksB_ne_nil (n fuel : Nat) (l : List α) (hl : l ≠ []) (hf : 0 < fuel) :
    chunksB n fuel l ≠ [] := by
  cases fuel with
  | zero => omega
  | succ m =>
    cases l with
    | nil => exact absurd rfl hl
    | cons a t => simp [chunksB]

/-! ## Claim C1: output ordering -/

/-- Claim C1: for every successful build in which a destination, a
non-empty payload, and positive change are all present, the output list
of the serialized transaction is exactly the Destination output first,
then one DataEmbed output per payload chunk in original payload byte
order, then the Change output last, with no other outputs and no
reordering.  The output list of the serialised bytes is recovered by the
wire-format parser `parseTxOutputs`; the final conjunct states that the
data chunks partition the payload in byte order. -/
theorem claim1_output_ordering
    (tx : TxInfo) (ms : Multisig) (ut : Bool) (oracle : Oracle) (env : KeyEnv)
    (da : List Char) (sh dh : List Nat) (amt : Nat)
    (data_array : List (List Nat)) (dval total : Nat) (ins : List Coin) (totin : Nat)
    (h_dst : tx.destination = some da) (h_da : da ≠ [])
    (h_srcdec : base58_decode tx.source ADDRESSVERSION = .ok sh)
    (h_dadec : base58_decode da ADDRESSVERSION = .ok dh)
    (h_amt : tx.btc_amount = some amt)
    (h_floor : (if ms.truthy = true then MULTISIG_DUST_SIZE else REGULAR_DUST_SIZE) ≤ amt)
    (h_own : ut = true ∨ oracle.ismine = true)
    (h_data : tx.data ≠ [])
    (h_80 : ms.truthy = false → tx.data.length ≤ 80)
    (h_arr : data_array = if ms.truthy = true then chunksB 32 tx.data.length tx.data
      else chunksB 80 tx.data.length tx.data)
    (h_dval : dval = if ms.truthy = true then MULTISIG_DUST_SIZE else OP_RETURN_VALUE)
    (h_total : total = tx.fee + dval * data_array.length + amt)
    (h_sel : coinAccum (oracle.coins.filter (fun c => c.address = tx.source)) [] 0 total
      = some (ins, totin))
    (h_chg : total < totin)
    (h_insWF : ∀ c ∈ ins, coinWF c) (h_inlen : ins.length < 2 ^ 64)
    (h_amt64 : amt < 2 ^ 64) (h_totin64 : totin < 2 ^ 64)
    (h_nout : data_array.length + 2 < 2 ^ 64)
    (h_dh : dh.length = 20) (h_sh : sh.length = 20)
    (h_ds : ∀ ch ∈ data_array, (dataScript env ms ut ch).length < 2 ^ 64) :
    ∃ bytes, (transaction tx ms ut oracle env).1 = .ok bytes ∧
      parseTxOutputs bytes = some
        ([(amt, p2pkhScript dh)]
          ++ data_array.map (fun ch => (dval, dataScript env ms ut ch))
          ++ [(totin - total, p2pkhScript sh)]) ∧
      data_array.flatten = tx.data := by
  have hch : ms.truthy = true → ∀ ch ∈ data_array, ch.length ≤ 32 := by
    intro ht ch hcm
    rw [h_arr, if_pos ht] at hcm
    exact (chunksB_len_le 32 tx.data.length (by norm_num) tx.data ch hcm).1
  have hstep := transaction_serialise_dest tx ms ut oracle env da sh dh amt data_array
    dval total ins totin h_dst h_da h_srcdec h_dadec h_amt h_floor h_own h_data h_80
    h_arr h_dval h_total h_sel h_chg
  rw [serialise_all ins da amt data_array dval tx.source (totin - total) tx.source ms ut
    env dh sh h_dadec h_srcdec hch] at hstep
  have hlen : 1 + data_array.length + 1 =
      ([(amt, p2pkhScript dh)]
        ++ data_array.map (fun ch => (dval, dataScript env ms ut ch))
        ++ [(totin - total, p2pkhScript sh)]).length := by
    simp; omega
  refine ⟨_, hstep, ?_, ?_⟩
  · rw [hlen]
    apply parseTx_roundtrip _ _ h_insWF h_inlen ?_ (by rw [← hlen]; omega)
    intro o ho
    simp only [List.mem_append, List.mem_singleton, List.mem_map] at ho
    rcases ho with (ho | ⟨ch, hcm, ho⟩) | ho
    · subst ho
      exact ⟨h_amt64, by rw [p2pkhScript_length dh h_dh]; norm_num⟩
    · rw [← ho]
      refine ⟨?_, h_ds ch hcm⟩
      rw [h_dval]
      split_ifs <;> norm_num [MULTISIG_DUST_SIZE, OP_RETURN_VALUE]
    · subst ho
      exact ⟨by omega, by rw [p2pkhScript_length sh h_sh]; norm_num⟩
  · rw [h_arr]
    split_ifs with h
    · exact chunksB_flatten 32 (by norm_num) tx.data.length tx.data (le_refl _)
    · exact chunksB_flatten 80 (by norm_num) tx.data.length tx.data (le_refl _)

set_option maxRecDepth 1000000

def w1src : List Char := base58_check_encode (List.replicate 20 5) [0]
def w1dst : List Char := base58_check_encode (List.replicate 20 7) [0]
def w1coin : Coin := ⟨w1src, List.replicate 32 9, 0, [0xaa], 12001⟩
def w1tx : TxInfo := ⟨w1src, some w1dst, some 6000, 1000, [1,2,3]⟩
def w1env : KeyEnv := ⟨fun _ => [], [], []⟩

/-- Witness for C1: a concrete null-data build with destination 6000,
fee 1000, three payload bytes and change 1. -/
theorem claim1_output_ordering_witness :
    ∃ bytes, (transaction w1tx .nullData true ⟨true, [w1coin]⟩ w1env).1 = .ok bytes ∧
      parseTxOutputs bytes = some
        ([(6000, p2pkhScript (List.replicate 20 7))]
          ++ [[1,2,3]].map (fun ch => ((5000:Nat), dataScript w1env .nullData true ch))
          ++ [(12001 - 12000, p2pkhScript (List.replicate 20 5))]) ∧
      ([[1,2,3]] : List (List Nat)).flatten = w1tx.data :=
  claim1_output_ordering w1tx .nullData true ⟨true, [w1coin]⟩ w1env w1dst
    (List.replicate 20 5) (List.replicate 20 7) 6000 [[1,2,3]] 5000 12000 [w1coin] 12001
    rfl (by decide) (by decide) (by decide) rfl (by decide) (Or.inl rfl) (by decide)
    (by decide) (by decide) (by decide) (by decide) (by decide) (by decide) (by decide)
    (by decide) (by decide) (by decide) (by decide) (by decide) (by decide) (by decide)


/-! ## Claim C8: change is never dust-checked -/

/-- Claim C8: when the selected coins' total exceeds the required total by
any positive amount, the build emits a change output of exactly that
difference paid back to the source, even when the difference is below the
dust floor (hypothesis `h_dust`): change outputs are never dust-checked,
so the built transaction can contain a sub-dust change output. -/
theorem claim8_subdust_change
    (tx : TxInfo) (ms : Multisig) (ut : Bool) (oracle : Oracle) (env : KeyEnv)
    (sh : List Nat) (data_array : List (List Nat)) (dval total : Nat)
    (ins : List Coin) (totin : Nat)
    (h_dst : destTruthy tx.destination = false)
    (h_srcdec : base58_decode tx.source ADDRESSVERSION = .ok sh)
    (h_amt : tx.btc_amount = none ∨ tx.btc_amount = some 0)
    (h_own : ut = true ∨ oracle.ismine = true)
    (h_data : tx.data ≠ [])
    (h_80 : ms.truthy = false → tx.data.length ≤ 80)
    (h_arr : data_array = if ms.truthy = true then chunksB 32 tx.data.length tx.data
      else chunksB 80 tx.data.length tx.data)
    (h_dval : dval = if ms.truthy = true then MULTISIG_DUST_SIZE else OP_RETURN_VALUE)
    (h_total : total = tx.fee + dval * data_array.length)
    (h_sel : coinAccum (oracle.coins.filter (fun c => c.address = tx.source)) [] 0 total
      = some (ins, totin))
    (h_chg : total < totin)
    (h_dust : totin - total < REGULAR_DUST_SIZE)
    (h_insWF : ∀ c ∈ ins, coinWF c) (h_inlen : ins.length < 2 ^ 64)
    (h_totin64 : totin < 2 ^ 64)
    (h_nout : data_array.length + 1 < 2 ^ 64)
    (h_sh : sh.length = 20)
    (h_ds : ∀ ch ∈ data_array, (dataScript env ms ut ch).length < 2 ^ 64) :
    ∃ bytes, (transaction tx ms ut oracle env).1 = .ok bytes ∧
      parseTxOutputs bytes = some
        (data_array.map (fun ch => (dval, dataScript env ms ut ch))
          ++ [(totin - total, p2pkhScript sh)]) := by
  have hch : ms.truthy = true → ∀ ch ∈ data_array, ch.length ≤ 32 := by
    intro ht ch hcm
    rw [h_arr, if_pos ht] at hcm
    exact (chunksB_len_le 32 tx.data.length (by norm_num) tx.data ch hcm).1
  have hstep := transaction_serialise_nodest tx ms ut oracle env sh data_array
    dval total ins totin h_dst h_srcdec h_amt h_own h_data h_80
    h_arr h_dval h_total h_sel h_chg
  rw [serialise_nodest ins data_array dval tx.source (totin - total) tx.source ms ut
    env sh h_srcdec hch] at hstep
  have hlen : 0 + data_array.length + 1 =
      (data_array.map (fun ch => (dval, dataScript env ms ut ch))
        ++ [(totin - total, p2pkhScript sh)]).length := by
    simp
  refine ⟨_, hstep, ?_⟩
  rw [hlen]
  apply parseTx_roundtrip _ _ h_insWF h_inlen ?_ (by rw [← hlen]; omega)
  intro o ho
  simp only [List.mem_append, List.mem_singleton, List.mem_map] at ho
  rcases ho with ⟨ch, hcm, ho⟩ | ho
  · rw [← ho]
    refine ⟨?_, h_ds ch hcm⟩
    rw [h_dval]
    split_ifs <;> norm_num [MULTISIG_DUST_SIZE, OP_RETURN_VALUE]
  · subst ho
    exact ⟨by omega, by rw [p2pkhScript_length sh h_sh]; norm_num⟩

def w8src : List Char := base58_check_encode (List.replicate 20 5) [0]
def w8coin : Coin := ⟨w8src, List.replicate 32 9, 1, [0xbb], 6001⟩
def w8tx : TxInfo := ⟨w8src, none, none, 1000, [1,2,3]⟩

/-- Witness for C8: a data-only build whose change output is 1 satoshi,
far below the 5430-satoshi dust floor, and still emitted. -/
theorem claim8_subdust_change_witness :
    ∃ bytes, (transaction w8tx .nullData true ⟨true, [w8coin]⟩ ⟨fun _ => [], [], []⟩).1
        = .ok bytes ∧
      parseTxOutputs bytes = some
        ([[1,2,3]].map (fun ch => ((5000:Nat), dataScript ⟨fun _ => [], [], []⟩ .nullData true ch))
          ++ [(6001 - 6000, p2pkhScript (List.replicate 20 5))]) :=
  claim8_subdust_change w8tx .nullData true ⟨true, [w8coin]⟩ ⟨fun _ => [], [], []⟩
    (List.replicate 20 5) [[1,2,3]] 5000 6000 [w8coin] 6001
    rfl (by decide) (Or.inl rfl) (Or.inl rfl) (by decide) (by decide) (by decide)
    (by decide) (by decide) (by decide) (by decide) (by decide) (by decide) (by decide)
    (by decide) (by decide) (by decide) (by decide)


/-! ## Claims C3 and C6: coin selection -/

/-- Total amount of a coin list. -/
def sumAmounts (l : List Coin) : Nat := (l.map Coin.amount).sum

/-- The selection property the spec asserts: the result is the shortest
prefix of the filtered coin list whose sum reaches the target, returned
with that sum. -/
def isShortestCover (l : List Coin) (target : Nat) (res : List Coin) (tot : Nat) : Prop :=
  ∃ k, res = l.take k ∧ tot = sumAmounts res ∧ target ≤ sumAmounts res
    ∧ ∀ j < k, ¬ target ≤ sumAmounts (l.take j)

theorem coinAccum_go (target : Nat) :
    ∀ (l acc : List Coin) (tot : Nat) (res : List Coin) (rt : Nat), tot < target →
    coinAccum l acc tot target = some (res, rt) →
    ∃ k, 0 < k ∧ k ≤ l.length ∧ res = acc ++ l.take k
      ∧ rt = tot + sumAmounts (l.take k) ∧ target ≤ rt
      ∧ ∀ j < k, tot + sumAmounts (l.take j) < target := by
  intro l
  induction l with
  | nil => intro acc tot res rt _ h; simp [coinAccum] at h
  | cons c rest ih =>
    intro acc tot res rt hlt h
    simp only [coinAccum] at h
    by_cases hc : target ≤ tot + c.amount
    · rw [if_pos hc] at h
      refine ⟨1, one_pos, by simp, ?_, ?_, ?_, ?_⟩
      · simpa [List.take_succ_cons] using (congrArg Prod.fst (Option.some_injective _ h)).symm
      · have := (congrArg Prod.snd (Option.some_injective _ h)).symm
        simpa [sumAmounts, List.take_succ_cons] using this
      · have := (congrArg Prod.snd (Option.some_injective _ h)).symm
        simp at this
        omega
      · intro j hj
        interval_cases j
        simpa [sumAmounts] using hlt
    · rw [if_neg hc] at h
      push_neg at hc
      obtain ⟨k, hk0, hkle, hres, hrt, hge, hmin⟩ := ih (acc ++ [c]) (tot + c.amount) res rt hc h
      refine ⟨k + 1, by omega, by simp; omega, ?_, ?_, hge, ?_⟩
      · simp [hres, List.take_succ_cons]
      · simp [hrt, sumAmounts, List.take_succ_cons]; omega
      · intro j hj
        cases j with
        | zero => simpa [sumAmounts] using hlt
        | succ j' =>
          have := hmin j' (by omega)
          simp [sumAmounts, List.take_succ_cons] at this ⊢
          omega

theorem coinAccum_none (target : Nat) :
    ∀ (l acc : List Coin) (tot : Nat), tot + sumAmounts l < target →
    coinAccum l acc tot target = none := by
  intro l
  induction l with
  | nil => intro acc tot _; rfl
  | cons c rest ih =>
    intro acc tot hlt
    simp only [sumAmounts, List.map_cons, List.sum_cons] at hlt
    simp only [coinAccum]
    rw [if_neg (by omega)]
    exact ih (acc ++ [c]) (tot + c.amount) (by simp [sumAmounts]; omega)

/-- Claim C3 (amended): for every source address and **positive** required
total, a successful coin selection returns the shortest prefix of the
coins filtered to the source, in source order, together with its sum.
The amendment adds positivity of the required total: with a required
total of 0 the loop still consumes one coin before testing the
threshold, so the selected set is not the shortest adequate prefix
(see `claim3_counterexample`). -/
theorem claim3_first_fit_amended (oracle : Oracle) (source : List Char) (target : Nat)
    (ut : Bool) (res : List Coin) (tot : Nat)
    (h_own : ut = true ∨ oracle.ismine = true) (hpos : 0 < target)
    (h : (get_inputs source target ut oracle).1 = .ok (some (res, tot))) :
    isShortestCover (oracle.coins.filter (fun c => c.address = source)) target res tot := by
  have hacc : coinAccum (oracle.coins.filter (fun c => c.address = source)) [] 0 target
      = some (res, tot) := by
    rcases h_own with hut | hm
    · subst hut; simpa [get_inputs] using h
    · cases ut
      · simpa [get_inputs, hm] using h
      · simpa [get_inputs] using h
  obtain ⟨k, hk0, hkle, hres, hrt, hge, hmin⟩ :=
    coinAccum_go target _ [] 0 res tot hpos hacc
  simp only [List.nil_append, Nat.zero_add] at hres hrt hmin
  refine ⟨k, hres, by rw [hrt, hres], by rw [← hres] at hrt; omega, ?_⟩
  intro j hj
  exact Nat.not_le.2 (hmin j hj)

def c3coin : Coin := ⟨['a'], [], 0, [], 5⟩

/-- Counterexample to C3 as stated: with required total 0 and one
available coin, `get_inputs` selects that coin, yet the empty prefix
already meets the threshold, so the selected set is not the shortest
prefix whose sum reaches the required total. -/
theorem claim3_counterexample :
    (get_inputs ['a'] 0 true ⟨true, [c3coin]⟩).1 = .ok (some ([c3coin], 5)) ∧
    ¬ isShortestCover (List.filter (fun c => c.address = ['a']) [c3coin]) 0 [c3coin] 5 := by
  constructor
  · decide
  · rintro ⟨k, hres, -, -, hmin⟩
    have hk : 0 < k := by
      rcases Nat.eq_zero_or_pos k with h0 | h0
      · subst h0; simp at hres
      · exact h0
    exact hmin 0 hk (by simp [sumAmounts])

def c3a : Coin := ⟨['s'], [], 0, [], 5⟩
def c3b : Coin := ⟨['s'], [], 1, [], 7⟩

/-- Witness for C3 (amended): two coins of 5 and 7 with target 6 select
exactly the two-coin prefix with sum 12. -/
theorem claim3_first_fit_witness :
    isShortestCover (List.filter (fun c => c.address = ['s']) (⟨true, [c3a, c3b]⟩ : Oracle).coins)
      6 [c3a, c3b] 12 :=
  claim3_first_fit_amended ⟨true, [c3a, c3b]⟩ ['s'] 6 true [c3a, c3b] 12
    (Or.inl rfl) (by decide) (by decide)

theorem chunksB_nil (n fuel : Nat) : chunksB n fuel ([] : List α) = [] := by
  cases fuel <;> simp [chunksB]

/-- Claim C6 (amended): when the coins available to the source sum to
less than the required total, the build fails with `BalanceError`
carrying the source address and the needed total — but not the
available amount: `get_inputs` returns `(None, None)`
(`bitcoin.py:347`), discarding the accumulated sum, so no `have` field
exists (see `claim6_counterexample`) — and no transaction is
constructed or submitted.  The statement covers every build that
reaches coin selection: destination-less builds (with the absent/zero
amount the `assert` of `bitcoin.py:380` requires) and builds with a
decodable destination whose effective amount (after the `None`
defaulting of `bitcoin.py:372`/`376`) meets the dust floor. -/
theorem claim6_insufficient_amended (tx : TxInfo) (ms : Multisig) (ut : Bool)
    (oracle : Oracle) (env : KeyEnv) (sh dh : List Nat)
    (data_array : List (List Nat)) (dval amt needed : Nat)
    (h_srcdec : base58_decode tx.source ADDRESSVERSION = .ok sh)
    (h_own : ut = true ∨ oracle.ismine = true)
    (h_80 : ms.truthy = false → tx.data.length ≤ 80)
    (h_arr : data_array = if ms.truthy = true then chunksB 32 tx.data.length tx.data
      else chunksB 80 tx.data.length tx.data)
    (h_dval : dval = if ms.truthy = true then MULTISIG_DUST_SIZE else OP_RETURN_VALUE)
    (h_amt_eff : amt = (tx.btc_amount).getD
      (if ms.truthy = true then MULTISIG_DUST_SIZE else REGULAR_DUST_SIZE))
    (h_dest : (destTruthy tx.destination = false
        ∧ (tx.btc_amount = none ∨ tx.btc_amount = some 0))
      ∨ (destTruthy tx.destination = true
        ∧ base58_decode (tx.destination.getD []) ADDRESSVERSION = .ok dh
        ∧ (if ms.truthy = true then MULTISIG_DUST_SIZE else REGULAR_DUST_SIZE) ≤ amt))
    (h_needed : needed = tx.fee + dval * data_array.length
      + (if destTruthy tx.destination = true then amt else 0))
    (h_sum : sumAmounts (oracle.coins.filter (fun c => c.address = tx.source)) < needed) :
    (transaction tx ms ut oracle env).1 = .error (.balanceError tx.source needed) := by
  have hnone := coinAccum_none needed
    (oracle.coins.filter (fun c => c.address = tx.source)) [] 0 (by omega)
  subst h_needed; subst h_dval; subst h_arr; subst h_amt_eff
  rcases h_dest with ⟨h_dst, h_amt⟩ | ⟨h_dst, h_ddec, h_floor⟩
  · have hamt0 : tx.btc_amount.getD 0 = 0 := by rcases h_amt with h | h <;> simp [h]
    by_cases hdata : tx.data = []
    case pos =>
      simp only [hdata, List.length_nil, chunksB_nil, ite_self, List.length_nil, Nat.mul_zero,
        Nat.add_zero, h_dst, Bool.false_eq_true, if_false] at hnone ⊢
      rcases h_own with hut | hmine
      · subst hut
        simp [transaction, get_inputs, h_dst, hamt0, h_srcdec, hdata, hnone,
          Except.isOk, Except.toBool]
      · cases ut <;>
          simp [transaction, get_inputs, h_dst, hamt0, h_srcdec, hdata, hmine, hnone,
            Except.isOk, Except.toBool]
    case neg =>
      have hde : tx.data.isEmpty = false := by simpa using hdata
      have hdne : tx.data ≠ [] := hdata
      cases hms : ms.truthy with
      | false =>
        have h1 : chunksB 80 tx.data.length tx.data = [tx.data] :=
          chunksB_of_le 80 tx.data hdne (h_80 hms)
        simp only [hms, Bool.false_eq_true, if_false, h1, List.length_cons, List.length_nil,
          Nat.zero_add, Nat.mul_one, h_dst, Nat.add_zero] at hnone
        rcases h_own with hut | hmine
        · subst hut
          simp [transaction, get_inputs, h_dst, hamt0, h_srcdec, hms, hde, h1, hnone,
            Except.isOk, Except.toBool]
        · cases ut <;>
            simp [transaction, get_inputs, h_dst, hamt0, h_srcdec, hms, hde, hmine, h1,
              hnone, Except.isOk, Except.toBool]
      | true =>
        simp only [hms, if_true, h_dst, Bool.false_eq_true, if_false, Nat.add_zero] at hnone
        rcases h_own with hut | hmine
        · subst hut
          simp [transaction, get_inputs, h_dst, hamt0, h_srcdec, hms, hde, hnone,
            Except.isOk, Except.toBool]
        · cases ut <;>
            simp [transaction, get_inputs, h_dst, hamt0, h_srcdec, hms, hde, hmine, hnone,
              Except.isOk, Except.toBool]
  · obtain ⟨da, hda⟩ : ∃ da, tx.destination = some da := by
      cases hd : tx.destination with
      | none => rw [hd] at h_dst; simp [destTruthy] at h_dst
      | some d => exact ⟨d, rfl⟩
    by_cases hdata : tx.data = []
    case pos =>
      simp only [hdata, List.length_nil, chunksB_nil, ite_self, List.length_nil, Nat.mul_zero,
        Nat.add_zero, h_dst, if_true] at hnone ⊢
      rcases h_own with hut | hmine
      · subst hut
        cases hms : ms.truthy <;>
          simp_all [transaction, get_inputs, hdata, Except.isOk, Except.toBool] <;>
            try rw [if_neg (Nat.not_lt.2 h_floor)]
      · cases ut <;> cases hms : ms.truthy <;>
          simp_all [transaction, get_inputs, hdata, Except.isOk, Except.toBool] <;>
            try rw [if_neg (Nat.not_lt.2 h_floor)]
    case neg =>
      have hde : tx.data.isEmpty = false := by simpa using hdata
      have hdne : tx.data ≠ [] := hdata
      cases hms : ms.truthy with
      | false =>
        have h1 : chunksB 80 tx.data.length tx.data = [tx.data] :=
          chunksB_of_le 80 tx.data hdne (h_80 hms)
        simp only [hms, Bool.false_eq_true, if_false, h1, List.length_cons, List.length_nil,
          Nat.zero_add, Nat.mul_one, h_dst, if_true] at hnone
        rcases h_own with hut | hmine
        · subst hut
          simp_all [transaction, get_inputs, Except.isOk, Except.toBool] <;>
            try rw [if_neg (Nat.not_lt.2 h_floor)]
        · cases ut <;>
            simp_all [transaction, get_inputs, Except.isOk, Except.toBool] <;>
            try rw [if_neg (Nat.not_lt.2 h_floor)]
      | true =>
        simp only [hms, if_true, h_dst, Nat.add_zero] at hnone
        rcases h_own with hut | hmine
        · subst hut
          simp_all [transaction, get_inputs, Except.isOk, Except.toBool] <;>
            try rw [if_neg (Nat.not_lt.2 h_floor)]
        · cases ut <;>
            simp_all [transaction, get_inputs, Except.isOk, Except.toBool] <;>
            try rw [if_neg (Nat.not_lt.2 h_floor)]

def c6src : List Char := base58_check_encode (List.replicate 20 3) [0]
def c6tx : TxInfo := ⟨c6src, none, none, 11, []⟩
def c6coinA : Coin := ⟨c6src, [], 0, [], 5⟩
def c6coinB : Coin := ⟨c6src, [], 0, [], 7⟩
def c6coinC : Coin := ⟨c6src, [], 0, [], 10⟩

/-- Counterexample to C6 as stated: two runs whose available coins sum to
5 and to 7 respectively, both short of the needed 11, produce *equal*
errors; an error carrying `have = X` would have to differ between the
two runs, so the error cannot carry the available amount. -/
theorem claim6_counterexample :
    (transaction c6tx .nullData true ⟨true, [c6coinA]⟩ ⟨fun _ => [], [], []⟩).1
      = .error (.balanceError c6src 11) ∧
    (transaction c6tx .nullData true ⟨true, [c6coinB]⟩ ⟨fun _ => [], [], []⟩).1
      = .error (.balanceError c6src 11) ∧
    sumAmounts [c6coinA] = 5 ∧ sumAmounts [c6coinB] = 7 := by
  exact ⟨by decide, by decide, rfl, rfl⟩

/-- A decodable destination address for the C6 witness. -/
def c6dstW : List Char := base58_check_encode (List.replicate 20 9) [0]

/-- An underfunded build *with* a destination: amount 6000 (above the
5430 regular dust floor) plus fee 11 against coins summing to 10. -/
def c6txD : TxInfo := ⟨c6src, some c6dstW, some 6000, 11, []⟩

/-- Witness for C6 (amended): a destination build needing 6011 against
coins summing to 10 produces `BalanceError(source, 6011)`. -/
theorem claim6_insufficient_witness :
    (transaction c6txD .nullData true ⟨true, [c6coinC]⟩ ⟨fun _ => [], [], []⟩).1
      = .error (.balanceError c6src 6011) :=
  claim6_insufficient_amended c6txD .nullData true ⟨true, [c6coinC]⟩ ⟨fun _ => [], [], []⟩
    (List.replicate 20 3) (List.replicate 20 9) [] 5000 6000 6011
    (by decide) (Or.inl rfl) (by decide) (by decide) (by decide) (by decide)
    (Or.inr ⟨by decide, by decide, by decide⟩) (by decide) (by decide)

/-! ## Claims C4 and C5: dust check timing and serializer purity -/


/-- Claim C4 (amended): a build whose destination amount is below the
applicable dust floor fails with the dust `TransactionError` before any
coin-selection RPC; it is preceded by **no** network call when the
wallet-ownership probe is skipped (unit-test mode, or `multisig` given
as a public-key string), and otherwise by exactly the one
`validateaddress` ownership probe of `bitcoin.py:366`, which the source
performs before the dust check (see `claim4_counterexample`). -/
theorem claim4_dust_check_amended (tx : TxInfo) (ms : Multisig) (ut : Bool)
    (oracle : Oracle) (env : KeyEnv) (da : List Char) (sh dh : List Nat) (amt : Nat)
    (h_dst : tx.destination = some da) (h_da : da ≠ [])
    (h_srcdec : base58_decode tx.source ADDRESSVERSION = .ok sh)
    (h_dadec : base58_decode da ADDRESSVERSION = .ok dh)
    (h_amt : tx.btc_amount = some amt)
    (h_dust : amt < (if ms.truthy = true then MULTISIG_DUST_SIZE else REGULAR_DUST_SIZE)) :
    (ut = true ∨ ms.isStr = true →
      transaction tx ms ut oracle env = (.error .transactionError, []))
    ∧ (ut = false → ms.isStr = false → oracle.ismine = true →
      transaction tx ms ut oracle env = (.error .transactionError, [.validateaddress])) := by
  have hdt : destTruthy tx.destination = true := by
    rw [h_dst]; simp [destTruthy, h_da]
  constructor
  · rintro (hut | hstr)
    · subst hut
      cases hms : ms.truthy <;>
        simp_all [transaction, destTruthy, Except.isOk, Except.toBool]
    · cases ut <;> cases hms : ms.truthy <;>
        simp_all [transaction, destTruthy, Except.isOk, Except.toBool]
  · intro hut hstr hmine
    subst hut
    cases hms : ms.truthy <;>
      simp_all [transaction, destTruthy, Except.isOk, Except.toBool]

def env0 : KeyEnv := ⟨fun _ => [], [], []⟩
def c4dst : List Char := base58_check_encode (List.replicate 20 4) [0]
def c4tx : TxInfo := ⟨c6src, some c4dst, some 1, 0, []⟩

/-- Counterexample to C4 as stated: in live mode with a plain (non-string
`multisig`) build, the sub-dust failure arrives only after a
`validateaddress` RPC — the trace preceding the dust error is not empty,
so network interaction precedes the dust failure. -/
theorem claim4_counterexample :
    transaction c4tx .nullData false ⟨true, []⟩ env0
      = (.error .transactionError, [.validateaddress]) ∧
    ([Rpc.validateaddress] : List Rpc) ≠ [] := ⟨by decide, by decide⟩

/-- Witness for C4 (amended): in unit-test mode the same sub-dust build
fails with an empty network trace. -/
theorem claim4_dust_check_witness :
    transaction c4tx .nullData true ⟨true, []⟩ env0 = (.error .transactionError, []) :=
  (claim4_dust_check_amended c4tx .nullData true ⟨true, []⟩ env0 c4dst
    (List.replicate 20 3) (List.replicate 20 4) 1
    rfl (by decide) (by decide) (by decide) rfl (by decide)).1 (Or.inl rfl)

theorem mapM_congr (f g : α → Except ε β) (l : List α) (h : ∀ a ∈ l, f a = g a) :
    l.mapM f = l.mapM g := by
  induction l with
  | nil => rfl
  | cons a t ih =>
    rw [List.mapM_cons, List.mapM_cons, h a (by simp), ih (fun x hx => h x (by simp [hx]))]

/-- Claim C5 (amended): the serializer is a pure function of its inputs
and output descriptions in the null-data embedding mode, and in
explicit-public-key multisig mode given the parse of the supplied key;
it is **not** a pure function of (inputs, outputs) in derived-multisig
mode, where the bytes depend on the wallet key fetched over RPC
(see `claim5_counterexample`). -/
theorem claim5_pure_amended (inputs : List Coin) (dest : Option (List Char × Nat))
    (datao : Option (List (List Nat) × Nat)) (chg : Option (List Char × Nat))
    (src : List Char) (ms : Multisig) (ut : Bool) (env1 env2 : KeyEnv)
    (h : ms = .nullData ∨ ∃ s, ms = .pub s ∧ env1.pubFromStr s = env2.pubFromStr s) :
    serialise inputs dest datao chg src ms ut env1 =
      serialise inputs dest datao chg src ms ut env2 := by
  have hdob : ∀ v ch, dataOutputBytes env1 ms ut v ch = dataOutputBytes env2 ms ut v ch := by
    intro v ch
    rcases h with h1 | ⟨s, h1, h2⟩
    · subst h1; rfl
    · subst h1; simp [dataOutputBytes, sourcePubkeyFor, h2]
  cases datao with
  | none => rfl
  | some p =>
    simp only [serialise]
    rw [mapM_congr _ _ _ (fun a _ => hdob _ a)]

/-- Counterexample to C5 as stated: two `serialise` runs with equal input
lists and equal output descriptions in derived-multisig mode produce
different bytes when the wallet answers `dumpprivkey` differently —
the serializer performs that RPC (`bitcoin.py:284`) and its result
enters the output. -/
theorem claim5_counterexample :
    serialise [] none (some ([[1]], 5000)) none [] .derived false ⟨fun _ => [], [2], []⟩ ≠
    serialise [] none (some ([[1]], 5000)) none [] .derived false ⟨fun _ => [], [3], []⟩ := by
  decide

/-- Witness for C5 (amended): in null-data mode the same two environments
yield identical bytes. -/
theorem claim5_pure_witness :
    serialise [] none (some ([[1]], 5000)) none [] .nullData true ⟨fun _ => [], [2], []⟩ =
    serialise [] none (some ([[1]], 5000)) none [] .nullData true ⟨fun _ => [], [3], []⟩ :=
  claim5_pure_amended [] none (some ([[1]], 5000)) none [] .nullData true
    ⟨fun _ => [], [2], []⟩ ⟨fun _ => [], [3], []⟩ (Or.inl rfl)

/-! ## Claim C10: the no-destination amount assertion -/


/-- The base58 character loop only ever raises `InvalidBase58Error`. -/
theorem b58StrToNat_err : ∀ (s : List Char) (n : Nat) (e : Err),
    b58StrToNat s n = .error e → e = .invalidBase58 := by
  intro s
  induction s with
  | nil => intro n e h; simp [b58StrToNat] at h
  | cons c cs ih =>
    intro n e h
    simp only [b58StrToNat] at h
    split_ifs at h with hc
    · exact ih _ e h
    · simp at h; exact h.symm


/-- `base58_decode` raises only its three documented error kinds. -/
theorem base58_decode_err (s : List Char) (v : List Nat) (e : Err)
    (h : base58_decode s v = .error e) :
    e = .invalidBase58 ∨ e = .versionByte ∨ e = .b58Checksum := by
  unfold base58_decode at h
  rcases hn : b58StrToNat s 0 with e' | n
  · rw [hn] at h
    simp at h
    exact Or.inl (h ▸ b58StrToNat_err s 0 e' hn)
  · rw [hn] at h
    simp only at h
    split_ifs at h with h1 h2 <;> simp_all

theorem mapM_err (f : α → Except ε β) : ∀ (l : List α) (e : ε),
    l.mapM f = .error e → ∃ a ∈ l, f a = .error e := by
  intro l
  induction l with
  | nil => intro e h; simp [List.mapM_nil] at h; cases h
  | cons a t ih =>
    intro e h
    rw [List.mapM_cons] at h
    rcases ha : f a with e' | b
    · rw [ha] at h
      simp [bind, Except.bind] at h
      exact ⟨a, by simp, by rw [ha, h]⟩
    · rw [ha] at h
      simp only [bind, Except.bind] at h
      rcases ht : t.mapM f with e'' | bs
      · rw [ht] at h
        simp at h
        obtain ⟨x, hx, hfx⟩ := ih e'' ht
        exact ⟨x, by simp [hx], by rw [hfx, h]⟩
      · rw [ht] at h
        simp [pure, Except.pure] at h

theorem dataOutputBytes_err (env : KeyEnv) (ms : Multisig) (ut : Bool) (v : Nat)
    (ch : List Nat) (e : Err) (h : dataOutputBytes env ms ut v ch = .error e) :
    e = .assertPadLength := by
  unfold dataOutputBytes at h
  split_ifs at h <;> simp_all

theorem addressOutputBytes_err (a : List Char) (v : Nat) (e : Err)
    (h : addressOutputBytes a v = .error e) :
    e = .invalidBase58 ∨ e = .versionByte ∨ e = .b58Checksum := by
  unfold addressOutputBytes at h
  rcases hd : base58_decode a ADDRESSVERSION with e' | pkh
  · rw [hd] at h
    simp [bind, Except.bind] at h
    exact h ▸ base58_decode_err a ADDRESSVERSION e' hd
  · rw [hd] at h
    simp [bind, Except.bind, pure, Except.pure] at h

theorem exceptBind_err {ε α β : Type} {ma : Except ε α} {f : α → Except ε β} {e : ε}
    (h : (ma >>= f) = .error e) : ma = .error e ∨ ∃ a, ma = .ok a ∧ f a = .error e := by
  rcases ma with e' | a
  · left
    simp [bind, Except.bind] at h
    rw [h]
  · right
    exact ⟨a, rfl, by simpa [bind, Except.bind] using h⟩

theorem serialise_err (inputs : List Coin) (dest : Option (List Char × Nat))
    (datao : Option (List (List Nat) × Nat)) (chg : Option (List Char × Nat))
    (src : List Char) (ms : Multisig) (ut : Bool) (env : KeyEnv) (e : Err)
    (h : serialise inputs dest datao chg src ms ut env = .error e) :
    e = .invalidBase58 ∨ e = .versionByte ∨ e = .b58Checksum ∨ e = .assertPadLength := by
  rcases dest with _ | ⟨daddr, dv⟩ <;> rcases chg with _ | ⟨caddr, cv⟩ <;>
    simp only [serialise, pure_bind] at h
  · rcases exceptBind_err h with h1 | ⟨parts, -, h2⟩
    · obtain ⟨x, -, hx⟩ := mapM_err _ _ e h1
      exact Or.inr (Or.inr (Or.inr (dataOutputBytes_err env ms ut _ x e hx)))
    · simp [pure, Except.pure] at h2
  · rcases exceptBind_err h with h1 | ⟨parts, -, h2⟩
    · obtain ⟨x, -, hx⟩ := mapM_err _ _ e h1
      exact Or.inr (Or.inr (Or.inr (dataOutputBytes_err env ms ut _ x e hx)))
    · rcases exceptBind_err h2 with h3 | ⟨y1, -, h4⟩
      · rcases addressOutputBytes_err _ _ e h3 with h5 | h5 | h5 <;> simp [h5]
      · simp [pure, Except.pure] at h4
  · rcases exceptBind_err h with h1 | ⟨y, -, h2⟩
    · rcases addressOutputBytes_err _ _ e h1 with h5 | h5 | h5 <;> simp [h5]
    · rcases exceptBind_err h2 with h3 | ⟨parts, -, h4⟩
      · obtain ⟨x, -, hx⟩ := mapM_err _ _ e h3
        exact Or.inr (Or.inr (Or.inr (dataOutputBytes_err env ms ut _ x e hx)))
      · simp [pure, Except.pure] at h4
  · rcases exceptBind_err h with h1 | ⟨y, -, h2⟩
    · rcases addressOutputBytes_err _ _ e h1 with h5 | h5 | h5 <;> simp [h5]
    · rcases exceptBind_err h2 with h3 | ⟨parts, -, h4⟩
      · obtain ⟨x, -, hx⟩ := mapM_err _ _ e h3
        exact Or.inr (Or.inr (Or.inr (dataOutputBytes_err env ms ut _ x e hx)))
      · rcases exceptBind_err h4 with h5 | ⟨y1, -, h6⟩
        · rcases addressOutputBytes_err _ _ e h5 with h7 | h7 | h7 <;> simp [h7]
        · simp [pure, Except.pure] at h6

theorem get_inputs_err (source : List Char) (total : Nat) (ut : Bool) (oracle : Oracle)
    (e : Err) (h : (get_inputs source total ut oracle).1 = .error e) :
    e = .nameError := by
  unfold get_inputs at h
  split_ifs at h <;> simp_all

/-- Claim C10: calling the build with no destination but a truthy
(nonzero) amount aborts via the `assert not btc_amount` assertion at
`bitcoin.py:380` (modelled as the dedicated `assertNoAmount` abort,
distinct from every typed error); with destination absent and amount
absent or zero, the build proceeds past that assertion — no later step
of the build can produce `assertNoAmount`. -/
theorem claim10_assert_amount (tx : TxInfo) (ms : Multisig) (ut : Bool)
    (oracle : Oracle) (env : KeyEnv)
    (h_dst : destTruthy tx.destination = false) :
    (∀ a sh, tx.btc_amount = some a → a ≠ 0 →
      base58_decode tx.source ADDRESSVERSION = .ok sh →
      (ut = true ∨ ms.isStr = true ∨ oracle.ismine = true) →
      (transaction tx ms ut oracle env).1 = .error .assertNoAmount)
    ∧ ((tx.btc_amount = none ∨ tx.btc_amount = some 0) →
      (transaction tx ms ut oracle env).1 ≠ .error .assertNoAmount) := by
  constructor
  · intro a sh hamt ha hsrc hown
    rcases hown with hut | hstr | hmine
    · subst hut
      simp [transaction, h_dst, hamt, ha, hsrc, Except.isOk, Except.toBool]
    · cases ut <;>
        simp [transaction, h_dst, hamt, ha, hsrc, hstr, Except.isOk, Except.toBool]
    · cases ut <;>
        simp [transaction, h_dst, hamt, ha, hsrc, hmine, Except.isOk, Except.toBool]
  · intro hfal
    have hamt0 : tx.btc_amount.getD 0 = 0 := by rcases hfal with h | h <;> simp [h]
    simp only [transaction, h_dst, Bool.false_eq_true, false_and, if_false, hamt0,
      ne_eq, not_true_eq_false, and_false]
    split_ifs <;> try simp
    all_goals
      split
      case _ e tr heq =>
        have h5 := get_inputs_err _ _ _ _ e (by simpa using congrArg Prod.fst heq)
        simp [h5]
      case _ => simp
      case _ inputs ti tr heq =>
        intro hcon
        simp only at hcon
        exact absurd (serialise_err _ _ _ _ _ _ _ _ _ hcon) (by simp)

/-- Witness for C10: amount 5 with no destination trips the assertion;
amount `None` with no destination does not. -/
theorem claim10_assert_amount_witness :
    (transaction ⟨c6src, none, some 5, 0, []⟩ .nullData true ⟨true, []⟩ env0).1
      = .error .assertNoAmount ∧
    (transaction ⟨c6src, none, none, 5, []⟩ .nullData true ⟨true, []⟩ env0).1
      ≠ .error .assertNoAmount :=
  ⟨(claim10_assert_amount ⟨c6src, none, some 5, 0, []⟩ .nullData true ⟨true, []⟩ env0 rfl).1
      5 (List.replicate 20 3) rfl (by decide) (by decide) (Or.inl rfl),
   (claim10_assert_amount ⟨c6src, none, none, 5, []⟩ .nullData true ⟨true, []⟩ env0 rfl).2
      (Or.inl rfl)⟩

/-! ## Digit-system lemmas for the Base58Check round trip -/

theorem natDigitsLE_eq_digits (b : Nat) (hb : 2 ≤ b) :
    ∀ (fuel n : Nat), n < b ^ fuel → natDigitsLE b fuel n = Nat.digits b n := by
  intro fuel
  induction fuel with
  | zero =>
    intro n hn
    have : n = 0 := by simpa using hn
    simp [this, natDigitsLE]
  | succ fuel ih =>
    intro n hn
    by_cases h0 : n = 0
    · simp [h0, natDigitsLE]
    · rw [natDigitsLE, if_neg h0, Nat.digits_def' (by omega : 1 < b) (by omega : 0 < n),
        ih (n / b) ?_]
      rw [Nat.div_lt_iff_lt_mul (by omega)]
      calc n < b ^ (fuel + 1) := hn
        _ = b ^ fuel * b := by ring

theorem foldlBE_eq_ofDigits (b : Nat) :
    ∀ (l : List Nat) (acc : Nat),
      l.foldl (fun a d => a * b + d) acc = acc * b ^ l.length + Nat.ofDigits b l.reverse := by
  intro l
  induction l with
  | nil => intro acc; simp [Nat.ofDigits]
  | cons d t ih =>
    intro acc
    rw [List.foldl_cons, ih (acc * b + d)]
    simp only [List.reverse_cons, Nat.ofDigits_append, List.length_reverse,
      List.length_cons, Nat.ofDigits_singleton]
    ring

theorem bytesToNatBE_eq_ofDigits (l : List Nat) :
    bytesToNatBE l = Nat.ofDigits 256 l.reverse := by
  rw [bytesToNatBE, foldlBE_eq_ofDigits]
  simp

theorem foldlBE_lt (b : Nat) (hb : 0 < b) :
    ∀ (l : List Nat) (acc : Nat), (∀ x ∈ l, x < b) →
      l.foldl (fun a d => a * b + d) acc < (acc + 1) * b ^ l.length := by
  intro l
  induction l with
  | nil => intro acc _; simp
  | cons d t ih =>
    intro acc h
    rw [List.foldl_cons]
    calc t.foldl (fun a d => a * b + d) (acc * b + d)
        < (acc * b + d + 1) * b ^ t.length := ih _ (fun x hx => h x (by simp [hx]))
      _ ≤ ((acc + 1) * b) * b ^ t.length := by
          have : d < b := h d (by simp)
          have : acc * b + d + 1 ≤ (acc + 1) * b := by nlinarith
          exact Nat.mul_le_mul_right _ this
      _ = (acc + 1) * b ^ (d :: t).length := by rw [List.length_cons]; ring

theorem bytesToNatBE_lt (l : List Nat) (h : ∀ x ∈ l, x < 256) :
    bytesToNatBE l < 256 ^ l.length := by
  have := foldlBE_lt 256 (by norm_num) l 0 h
  simpa [bytesToNatBE] using this

theorem foldlBE_ge (b : Nat) (hb : 0 < b) :
    ∀ (l : List Nat) (acc : Nat), acc ≤ l.foldl (fun a d => a * b + d) acc := by
  intro l
  induction l with
  | nil => intro acc; simp
  | cons d t ih =>
    intro acc
    rw [List.foldl_cons]
    calc acc ≤ acc * b + d := by nlinarith
      _ ≤ t.foldl (fun a d => a * b + d) (acc * b + d) := ih _

theorem bytesToNatBE_pos (l : List Nat) (x : Nat) (hx : x ∈ l) (hx0 : x ≠ 0) :
    0 < bytesToNatBE l := by
  obtain ⟨l1, l2, rfl⟩ := List.append_of_mem hx
  rw [bytesToNatBE, List.foldl_append, List.foldl_cons]
  calc 0 < x := Nat.pos_of_ne_zero hx0
    _ ≤ (l1.foldl (fun a b => a * 256 + b) 0) * 256 + x := by omega
    _ ≤ _ := foldlBE_ge 256 (by norm_num) l2 _

theorem leadZeroBytes_le (l : List Nat) : leadZeroBytes l ≤ l.length := by
  induction l with
  | nil => simp [leadZeroBytes]
  | cons c r ih =>
    rw [leadZeroBytes]
    split_ifs <;> simp <;> omega

theorem leadZeroBytes_decomp (l : List Nat) :
    l = List.replicate (leadZeroBytes l) 0 ++ l.drop (leadZeroBytes l) := by
  induction l with
  | nil => rfl
  | cons c r ih =>
    rw [leadZeroBytes]
    split_ifs with hc
    · subst hc
      rw [List.replicate_succ]
      simpa using ih
    · simp

theorem leadZeroBytes_head (l : List Nat) (h : l.drop (leadZeroBytes l) ≠ []) :
    (l.drop (leadZeroBytes l)).headI ≠ 0 := by
  induction l with
  | nil => simp at h
  | cons c r ih =>
    by_cases hc : c = 0
    · rw [show leadZeroBytes (c :: r) = leadZeroBytes r + 1 from by simp [leadZeroBytes, hc]]
        at h ⊢
      simp only [List.drop_succ_cons] at h ⊢
      exact ih h
    · rw [show leadZeroBytes (c :: r) = 0 from by simp [leadZeroBytes, hc]] at h ⊢
      simpa using hc

theorem leadZeroBytes_replicate_append (k : Nat) (t : List Nat) (h : t.headI ≠ 0 ∨ t = []) :
    leadZeroBytes (List.replicate k 0 ++ t) = k + leadZeroBytes t := by
  induction k with
  | zero => simp
  | succ k ih =>
    rw [List.replicate_succ, List.cons_append, leadZeroBytes, if_pos rfl, ih]
    omega

theorem leadZeroBytes_head_ne (t : List Nat) (h : t.headI ≠ 0) : leadZeroBytes t = 0 := by
  cases t with
  | nil => rfl
  | cons c r =>
    simp only [List.headI] at h
    simp [leadZeroBytes, h]

theorem toBytesBE_length (k v : Nat) : (toBytesBE k v).length = k := by simp [toBytesBE]

theorem toBytesBE_lt (k v : Nat) : ∀ x ∈ toBytesBE k v, x < 256 := by
  intro x hx
  simp only [toBytesBE, List.mem_map] at hx
  obtain ⟨i, -, rfl⟩ := hx
  exact Nat.mod_lt _ (by norm_num)

theorem sha256_length (m : List Nat) : (sha256 m).length = 32 := by
  rw [sha256]
  rcases hfold : (chunksB 64 (sha256pad m).length (sha256pad m)).foldl shaBlock
      (1779033703, 3144134277, 1013904242, 2773480762,
       1359893119, 2600822924, 528734635, 1541459225) with
    ⟨h0, h1, h2, h3, h4, h5, h6, h7⟩
  simp [hfold, toBytesBE_length]

theorem sha256_lt (m : List Nat) : ∀ x ∈ sha256 m, x < 256 := by
  rw [sha256]
  rcases hfold : (chunksB 64 (sha256pad m).length (sha256pad m)).foldl shaBlock
      (1779033703, 3144134277, 1013904242, 2773480762,
       1359893119, 2600822924, 528734635, 1541459225) with
    ⟨h0, h1, h2, h3, h4, h5, h6, h7⟩
  intro x hx
  simp only [hfold, List.mem_append] at hx
  rcases hx with ((((((h | h) | h) | h) | h) | h) | h) | h <;> exact toBytesBE_lt _ _ x h

theorem b58_digits_length : b58_digits.length = 58 := by decide

theorem b58_digits_getD_mem (r : Nat) (hr : r < 58) : b58_digits.getD r '1' ∈ b58_digits := by
  revert r
  decide

theorem b58_indexOf_getD (r : Nat) (hr : r < 58) :
    b58_digits.indexOf (b58_digits.getD r '1') = r := by
  revert r
  decide

theorem b58_getD_ne_one (r : Nat) (hr : r < 58) (hr0 : r ≠ 0) :
    b58_digits.getD r '1' ≠ '1' := by
  revert r
  decide

theorem b58StrToNat_valid : ∀ (s : List Char) (a : Nat), (∀ c ∈ s, c ∈ b58_digits) →
    b58StrToNat s a = .ok (s.foldl (fun n c => n * 58 + b58_digits.indexOf c) a) := by
  intro s
  induction s with
  | nil => intro a _; rfl
  | cons c cs ih =>
    intro a h
    rw [b58StrToNat, if_pos (h c (by simp)), List.foldl_cons,
      ih _ (fun x hx => h x (by simp [hx]))]

theorem b58StrToNat_ok_inv : ∀ (s : List Char) (a n : Nat), b58StrToNat s a = .ok n →
    (∀ c ∈ s, c ∈ b58_digits)
    ∧ n = s.foldl (fun n c => n * 58 + b58_digits.indexOf c) a := by
  intro s
  induction s with
  | nil =>
    intro a n h
    simp only [b58StrToNat] at h
    refine ⟨by simp, ?_⟩
    simpa using (Except.ok.injEq _ _ ▸ h).symm
  | cons c cs ih =>
    intro a n h
    rw [b58StrToNat] at h
    split_ifs at h with hc
    · obtain ⟨hall, hval⟩ := ih _ n h
      refine ⟨?_, by rw [List.foldl_cons]; exact hval⟩
      intro x hx
      rcases List.mem_cons.1 hx with rfl | hx
      · exact hc
      · exact hall x hx

theorem leadB58Ones_replicate_append (k : Nat) (t : List Char) :
    leadB58Ones (List.replicate k '1' ++ t) = k + leadB58Ones t := by
  induction k with
  | zero => simp
  | succ k ih =>
    rw [List.replicate_succ, List.cons_append, leadB58Ones, if_pos (by decide), ih]
    omega

theorem leadB58Ones_head_ne (t : List Char) (h : t.headI ≠ '1') : leadB58Ones t = 0 := by
  cases t with
  | nil => rfl
  | cons c r =>
    simp only [List.headI] at h
    rw [leadB58Ones, if_neg (by simpa using h)]

theorem flatten_replicate_singleton (k v : Nat) :
    (List.replicate k [v]).flatten = List.replicate k v := by
  induction k with
  | zero => rfl
  | succ k ih => simp [List.replicate_succ, ih]

/-! ## Claims C2 and C9: Base58Check round trip -/


theorem foldl_replicate_zero (b k : Nat) :
    List.foldl (fun a d => a * b + d) 0 (List.replicate k 0) = 0 := by
  induction k with
  | zero => rfl
  | succ k ih => simpa [List.replicate_succ] using ih

theorem bytesToNatBE_strip (z : Nat) (t : List Nat) :
    bytesToNatBE (List.replicate z 0 ++ t) = bytesToNatBE t := by
  simp only [bytesToNatBE, List.foldl_append, foldl_replicate_zero]

theorem foldl_replicate_one (k : Nat) :
    List.foldl (fun n c => n * 58 + b58_digits.indexOf c) 0 (List.replicate k '1') = 0 := by
  induction k with
  | zero => rfl
  | succ k ih => simpa [List.replicate_succ, show b58_digits.indexOf '1' = 0 from by decide]
      using ih

theorem digits256_strip (l : List Nat) (hlt : ∀ x ∈ l, x < 256)
    (hne : l.drop (leadZeroBytes l) ≠ []) :
    (Nat.digits 256 (bytesToNatBE l)).reverse = l.drop (leadZeroBytes l) := by
  set t := l.drop (leadZeroBytes l) with ht
  have hthead : t.headI ≠ 0 := leadZeroBytes_head l hne
  have hval : bytesToNatBE l = bytesToNatBE t := by
    conv_lhs => rw [leadZeroBytes_decomp l]
    rw [bytesToNatBE_strip]
  have htlt : ∀ x ∈ t, x < 256 := fun x hx => hlt x (List.mem_of_mem_drop hx)
  cases hc : t with
  | nil => exact absurd hc hne
  | cons a t' =>
    have hdig : Nat.digits 256 (Nat.ofDigits 256 (a :: t').reverse) = (a :: t').reverse := by
      apply Nat.digits_ofDigits 256 (by norm_num)
      · intro x hx
        exact htlt x (by rw [hc]; simpa using List.mem_reverse.1 hx)
      · intro h
        have hlast : (a :: t').reverse.getLast h = a := by simp [List.getLast_eq_getElem]
        rw [hlast]
        rw [hc] at hthead
        simpa using hthead
    rw [hval, hc, bytesToNatBE_eq_ofDigits, hdig]
    simp

theorem dhash_length (x : List Nat) : (dhash x).length = 32 := by
  rw [dhash, sha256_length]

theorem dhash_lt (x : List Nat) : ∀ y ∈ dhash x, y < 256 := by
  rw [dhash]; exact sha256_lt _

theorem b58res_value (n : Nat) :
    List.foldl (fun m c => m * 58 + b58_digits.indexOf c) 0
      (((Nat.digits 58 n).map (fun r => b58_digits.getD r '1')).reverse) = n := by
  rw [← List.map_reverse, List.foldl_map]
  have h1 : (Nat.digits 58 n).reverse.foldl
      (fun m r => m * 58 + b58_digits.indexOf (b58_digits.getD r '1')) 0 =
      ((Nat.digits 58 n).reverse.map (fun r => b58_digits.indexOf (b58_digits.getD r '1'))).foldl
      (fun m r => m * 58 + r) 0 := (List.foldl_map _ _ _ _).symm
  have h2 : (Nat.digits 58 n).reverse.map
      (fun r => b58_digits.indexOf (b58_digits.getD r '1')) = (Nat.digits 58 n).reverse := by
    rw [show (Nat.digits 58 n).reverse.map
        (fun r => b58_digits.indexOf (b58_digits.getD r '1'))
        = (Nat.digits 58 n).reverse.map id from
      List.map_congr_left (fun a ha =>
        b58_indexOf_getD a (Nat.digits_lt_base (by norm_num) (List.mem_reverse.1 ha)))]
    exact List.map_id _
  rw [h1, h2]
  have h3 := foldlBE_eq_ofDigits 58 (Nat.digits 58 n).reverse 0
  simpa [Nat.ofDigits_digits] using h3

theorem getLast_of_eq_append {α : Type} {l ds : List α} {a : α} (h : l = ds ++ [a])
    (hne : l ≠ []) : l.getLast hne = a := by
  subst h
  exact List.getLast_concat ds

theorem foldlBE_ge_pow (b : Nat) (hb : 0 < b) :
    ∀ (l : List Nat) (acc : Nat), acc * b ^ l.length ≤ l.foldl (fun a d => a * b + d) acc := by
  intro l
  induction l with
  | nil => intro acc; simp
  | cons d t ih =>
    intro acc
    rw [List.foldl_cons]
    calc acc * b ^ (d :: t).length = (acc * b) * b ^ t.length := by
          rw [List.length_cons]; ring
      _ ≤ (acc * b + d) * b ^ t.length := Nat.mul_le_mul_right _ (by omega)
      _ ≤ t.foldl (fun a d => a * b + d) (acc * b + d) := ih _

/-- Core round-trip: decoding an encoded payload with the same version
byte returns the payload.  `hpad` says the checksum does not extend the
run of leading zero bytes of `version ++ payload` (it can only fail to
hold when `version ++ payload` is all zero bytes *and* the checksum
starts with a zero byte). -/
theorem base58_roundtrip_core (p : List Nat) (v : Nat) (hv : v < 256)
    (hp : ∀ x ∈ p, x < 256)
    (hpad : leadZeroBytes (([v] ++ p) ++ (dhash ([v] ++ p)).take 4)
      = leadZeroBytes ([v] ++ p)) :
    base58_decode (base58_check_encode p [v]) [v] = .ok p := by
  have hchklen : ((dhash ([v] ++ p)).take 4).length = 4 := by
    rw [List.length_take, dhash_length]
    rfl
  have hhexlt : ∀ x ∈ ([v] ++ p) ++ (dhash ([v] ++ p)).take 4, x < 256 := by
    intro x hx
    rcases List.mem_append.1 hx with hx | hx
    · rcases List.mem_append.1 hx with hx | hx
      · rw [List.mem_singleton.1 hx]; exact hv
      · exact hp x hx
    · exact dhash_lt _ x (List.mem_of_mem_take hx)
  have hhexlen : (([v] ++ p) ++ (dhash ([v] ++ p)).take 4).length = p.length + 5 := by
    rw [List.length_append, hchklen]
    simp

  set hex := ([v] ++ p) ++ (dhash ([v] ++ p)).take 4 with hhex
  set n := bytesToNatBE hex with hn
  have hn_lt : n < 256 ^ hex.length := bytesToNatBE_lt hex hhexlt
  have hzlt : leadZeroBytes hex < hex.length := by
    rw [hpad]
    have := leadZeroBytes_le ([v] ++ p)
    simp only [hhexlen]
    simp only [List.length_append, List.length_singleton] at this
    omega
  have htne : hex.drop (leadZeroBytes hex) ≠ [] := by
    intro hcon
    have := congrArg List.length hcon
    simp only [List.length_drop, List.length_nil] at this
    omega
  have hn_pos : 0 < n := by
    have hhead := leadZeroBytes_head hex htne
    have hmem : (hex.drop (leadZeroBytes hex)).headI ∈ hex := by
      cases hc : hex.drop (leadZeroBytes hex) with
      | nil => exact absurd hc htne
      | cons a t' =>
        have : a ∈ hex.drop (leadZeroBytes hex) := by rw [hc]; simp
        simpa [hc] using List.mem_of_mem_drop this
    exact bytesToNatBE_pos hex _ hmem hhead
  have hb58bound : n < 58 ^ (2 * hex.length) := by
    calc n < 256 ^ hex.length := hn_lt
      _ ≤ (58 ^ 2) ^ hex.length := Nat.pow_le_pow_left (by norm_num) _
      _ = 58 ^ (2 * hex.length) := by rw [← pow_mul, mul_comm]
  -- the encoded string
  have hencode : base58_check_encode p [v] =
      List.replicate (leadZeroBytes ([v] ++ p)) '1'
        ++ ((Nat.digits 58 n).map (fun r => b58_digits.getD r '1')).reverse := by
    rw [base58_check_encode]
    rw [natDigitsLE_eq_digits 58 (by norm_num) _ _ (by rw [← hhex, ← hn]; exact hb58bound)]
  set res := ((Nat.digits 58 n).map (fun r => b58_digits.getD r '1')).reverse with hres
  set s := List.replicate (leadZeroBytes ([v] ++ p)) '1' ++ res with hs
  obtain ⟨ds, dlast, hds⟩ : ∃ ds dlast, Nat.digits 58 n = ds ++ [dlast] := by
    rcases List.eq_nil_or_concat (Nat.digits 58 n) with h | ⟨ds, dlast, h⟩
    · exact absurd h (Nat.digits_ne_nil_iff_ne_zero.2 (by omega))
    · exact ⟨ds, dlast, by simpa using h⟩
  have hdlast_lt : dlast < 58 := Nat.digits_lt_base (by norm_num) (by rw [hds]; simp)
  have hdlast_ne : dlast ≠ 0 := by
    have h1 := Nat.getLast_digit_ne_zero 58 (show n ≠ 0 by omega)
    rwa [getLast_of_eq_append hds] at h1
  have hresform : res = b58_digits.getD dlast '1'
      :: (ds.map (fun r => b58_digits.getD r '1')).reverse := by
    rw [hres, hds]
    simp
  have hreshead : res.headI ≠ '1' := by
    rw [hresform]
    simpa using b58_getD_ne_one dlast hdlast_lt hdlast_ne
  have hresne : res ≠ [] := by rw [hresform]; simp
  -- step 1: the base58 value parses back to n
  have hvalid : ∀ c ∈ s, c ∈ b58_digits := by
    intro c hc
    rcases List.mem_append.1 hc with hc | hc
    · rw [List.eq_of_mem_replicate hc]; decide
    · rw [hres] at hc
      rw [List.mem_reverse] at hc
      obtain ⟨r, hr, rfl⟩ := List.mem_map.1 hc
      exact b58_digits_getD_mem r (Nat.digits_lt_base (by norm_num) hr)
  have hsval : b58StrToNat s 0 = .ok n := by
    rw [b58StrToNat_valid s 0 hvalid, hs, List.foldl_append, foldl_replicate_one, hres,
      b58res_value]
  -- step 3: the dropLast padding count
  have hpad' : leadB58Ones s.dropLast = leadZeroBytes ([v] ++ p) := by
    rw [hs, List.dropLast_append_of_ne_nil _ hresne, leadB58Ones_replicate_append]
    rcases hc : res.dropLast with _ | ⟨c0, rest⟩
    · simp [hc, leadB58Ones]
    · have hhead : (c0 :: rest).headI = res.headI := by
        rw [hresform] at hc
        cases hrest : (List.map (fun r => b58_digits.getD r '1') ds).reverse with
        | nil => rw [hrest] at hc; simp at hc
        | cons y ys =>
          rw [hrest] at hc
          simp only [List.dropLast_cons₂, List.cons.injEq] at hc
          rw [hresform, hrest]
          simp only [List.headI]
          exact hc.1.symm
      rw [leadB58Ones_head_ne (c0 :: rest) (by rw [hhead]; exact hreshead)]
      omega
  -- s is long enough to serve as decode fuel
  have hslen_ge : hex.length ≤ s.length := by
    cases hc : hex.drop (leadZeroBytes hex) with
    | nil => exact absurd hc htne
    | cons a t' =>
      have hane : a ≠ 0 := by
        have := leadZeroBytes_head hex htne
        rw [hc] at this
        simpa using this
      have hnge : 256 ^ t'.length ≤ n := by
        have h1 : bytesToNatBE hex = bytesToNatBE (a :: t') := by
          conv_lhs => rw [leadZeroBytes_decomp hex]
          rw [hc, bytesToNatBE_strip]
        have h2 : bytesToNatBE (a :: t') = t'.foldl (fun x d => x * 256 + d) a := by
          simp [bytesToNatBE]
        calc 256 ^ t'.length = 1 * 256 ^ t'.length := by ring
          _ ≤ a * 256 ^ t'.length := Nat.mul_le_mul_right _ (by omega)
          _ ≤ t'.foldl (fun x d => x * 256 + d) a := foldlBE_ge_pow 256 (by norm_num) t' a
          _ = n := by rw [← h2, ← h1, hn]
      have hcount : t'.length + 1 ≤ (Nat.digits 58 n).length := by
        by_contra hcon
        push_neg at hcon
        have h3 : n < 58 ^ (Nat.digits 58 n).length := by
          conv_lhs => rw [← Nat.ofDigits_digits 58 n]
          exact Nat.ofDigits_lt_base_pow_length (by norm_num)
            (fun l hl => Nat.digits_lt_base (by norm_num) hl)
        have h4 : n < 58 ^ t'.length :=
          lt_of_lt_of_le h3 (Nat.pow_le_pow_right (by norm_num) (by omega))
        have h5 : (58:Nat) ^ t'.length ≤ 256 ^ t'.length :=
          Nat.pow_le_pow_left (by norm_num) _
        omega
      have hzlen : hex.length = leadZeroBytes hex + (t'.length + 1) := by
        have h6 := congrArg List.length (leadZeroBytes_decomp hex)
        rw [hc] at h6
        simpa using h6
      have hslen : s.length = leadZeroBytes ([v] ++ p) + (Nat.digits 58 n).length := by
        rw [hs]
        simp [hres]
      rw [hzlen, hslen, hpad]
      omega
  have hnfuel : n < 256 ^ s.length :=
    lt_of_lt_of_le hn_lt (Nat.pow_le_pow_right (by norm_num) hslen_ge)
  have hstrip := digits256_strip hex hhexlt htne
  rw [← hn] at hstrip
  have hk : List.replicate (leadZeroBytes ([v] ++ p)) v ++ hex.drop (leadZeroBytes hex)
      = hex := by
    rcases Nat.eq_zero_or_pos (leadZeroBytes ([v] ++ p)) with h0 | h0
    · have hz0 : leadZeroBytes hex = 0 := by rw [hpad, h0]
      simp only [hz0, List.drop_zero]
      simpa using h0
    · have hv0 : v = 0 := by
        by_contra hvne
        have : leadZeroBytes ([v] ++ p) = 0 :=
          leadZeroBytes_head_ne ([v] ++ p) (by simpa using hvne)
        omega
      subst hv0
      rw [← hpad]
      exact (leadZeroBytes_decomp hex).symm
  have hk1 : hex.take 1 = [v] := by
    rw [hhex]
    rfl
  have hlen4 : hex.length - 4 = p.length + 1 := by rw [hhexlen]; omega
  have hdata : (hex.take (hex.length - 4)).drop 1 = p := by
    rw [hlen4, hhex, show p.length + 1 = ([v] ++ p).length from by simp, List.take_left]
    simp
  have hchk0 : hex.drop (hex.length - 4) = (dhash ([v] ++ p)).take 4 := by
    rw [hlen4, hhex, show p.length + 1 = ([v] ++ p).length from by simp, List.drop_left]
  rw [hencode, base58_decode, hsval]
  simp only [if_neg (show ¬ n = 0 from by omega),
    natDigitsLE_eq_digits 256 (by norm_num) s.length n hnfuel, hstrip, hpad',
    flatten_replicate_singleton, hk, hk1, hdata, hchk0]
  rw [if_neg (by simp), if_neg (by simp)]

/-- Claim C2: for every valid `(payload, version)` pair — version a byte,
payload bytes, and the leading-zero condition of
`base58_roundtrip_core` — decoding the string produced by
`base58_check_encode` with the same expected version returns the
payload unchanged (the code returns the payload alone; the version is
checked for equality with the expected version inside `base58_decode`). -/
theorem claim2_base58_roundtrip (p : List Nat) (v : Nat) (hv : v < 256)
    (hp : ∀ x ∈ p, x < 256)
    (hpad : leadZeroBytes (([v] ++ p) ++ (dhash ([v] ++ p)).take 4)
      = leadZeroBytes ([v] ++ p)) :
    base58_decode (base58_check_encode p [v]) [v] = .ok p :=
  base58_roundtrip_core p v hv hp hpad

/-- Witness for C2: a 20-byte payload under version 0 round trips. -/
theorem claim2_base58_roundtrip_witness :
    base58_decode (base58_check_encode (List.replicate 20 5) [0]) [0]
      = .ok (List.replicate 20 5) :=
  claim2_base58_roundtrip (List.replicate 20 5) 0 (by norm_num) (by decide) (by decide)

/-- Claim C9: `base58_decode` accepts well-checksummed strings of any
payload length — payloads that are not 20 bytes are returned rather
than rejected (no length check exists in `base58_decode`). -/
theorem claim9_any_length (p : List Nat) (v : Nat) (hlen : p.length ≠ 20) (hv : v < 256)
    (hp : ∀ x ∈ p, x < 256)
    (hpad : leadZeroBytes (([v] ++ p) ++ (dhash ([v] ++ p)).take 4)
      = leadZeroBytes ([v] ++ p)) :
    base58_decode (base58_check_encode p [v]) [v] = .ok p :=
  base58_roundtrip_core p v hv hp hpad

/-- Witness for C9: a 3-byte payload is decoded successfully. -/
theorem claim9_any_length_witness :
    base58_decode (base58_check_encode [1, 2, 3] [0]) [0] = .ok [1, 2, 3] :=
  claim9_any_length [1, 2, 3] 0 (by norm_num) (by norm_num) (by decide) (by decide)


/-! ## Claim C7: single-character changes to an encoded address -/

theorem b58_indexOf_lt (c : Char) (hc : c ∈ b58_digits) : b58_digits.indexOf c < 58 := by
  have := List.indexOf_lt_length.2 hc
  simpa [b58_digits_length] using this

theorem b58_getD_indexOf (c : Char) (hc : c ∈ b58_digits) :
    b58_digits.getD (b58_digits.indexOf c) '1' = c := by
  revert c
  decide

theorem ofDigitsBE_inj (b : Nat) (hb : 1 < b) :
    ∀ (l1 l2 : List Nat), l1.length = l2.length → (∀ x ∈ l1, x < b) → (∀ x ∈ l2, x < b) →
    Nat.ofDigits b l1 = Nat.ofDigits b l2 → l1 = l2 := by
  intro l1
  induction l1 with
  | nil =>
    intro l2 hlen _ _ _
    exact (List.length_eq_zero.1 hlen.symm).symm ▸ rfl
  | cons d t ih =>
    intro l2 hlen h1 h2 hval
    cases l2 with
    | nil => simp at hlen
    | cons d' t' =>
      rw [Nat.ofDigits_cons, Nat.ofDigits_cons] at hval
      have hd : d = d' := by
        have e1 : (d + b * Nat.ofDigits b t) % b = d % b := by
          simp [Nat.add_mul_mod_self_left]
        have e2 : (d' + b * Nat.ofDigits b t') % b = d' % b := by
          simp [Nat.add_mul_mod_self_left]
        have := congrArg (fun x => x % b) hval
        simp only at this
        rw [e1, e2, Nat.mod_eq_of_lt (h1 d (by simp)), Nat.mod_eq_of_lt (h2 d' (by simp))]
          at this
        exact this
      subst hd
      have ht : Nat.ofDigits b t = Nat.ofDigits b t' := by
        have : b * Nat.ofDigits b t = b * Nat.ofDigits b t' := by omega
        exact Nat.eq_of_mul_eq_mul_left (by omega) this
      rw [ih t' (by simpa using hlen) (fun x hx => h1 x (by simp [hx]))
        (fun x hx => h2 x (by simp [hx])) ht]

theorem zeroRun_decomp_inj (a b : Nat) (u w : List Nat)
    (hu : u.headI ≠ 0 ∨ u = []) (hw : w.headI ≠ 0 ∨ w = [])
    (h : List.replicate a 0 ++ u = List.replicate b 0 ++ w) : a = b ∧ u = w := by
  have hu0 : leadZeroBytes u = 0 := by
    rcases hu with hu | hu
    · exact leadZeroBytes_head_ne u hu
    · rw [hu]; rfl
  have hw0 : leadZeroBytes w = 0 := by
    rcases hw with hw | hw
    · exact leadZeroBytes_head_ne w hw
    · rw [hw]; rfl
  have h1 : leadZeroBytes (List.replicate a 0 ++ u) = a := by
    rw [leadZeroBytes_replicate_append a u (by tauto), hu0]
    omega
  have h2 : leadZeroBytes (List.replicate b 0 ++ w) = b := by
    rw [leadZeroBytes_replicate_append b w (by tauto), hw0]
    omega
  have hab : a = b := by rw [← h1, ← h2, h]
  subst hab
  exact ⟨rfl, List.append_cancel_left h⟩

/-- Inversion of a successful `base58_decode` with version byte 0: the
decoded byte string `k` satisfies the version, payload and checksum
equations of the source (`bitcoin.py:194-206`). -/
theorem base58_decode_ok_inv (s : List Char) (data : List Nat)
    (h : base58_decode s [0] = .ok data) :
    ∃ n, b58StrToNat s 0 = .ok n ∧
      ((List.replicate (leadB58Ones s.dropLast) 0
          ++ (if n = 0 then [0] else (natDigitsLE 256 s.length n).reverse)).take 1 = [0]
       ∧ data = ((List.replicate (leadB58Ones s.dropLast) 0
          ++ (if n = 0 then [0] else (natDigitsLE 256 s.length n).reverse)).take
            ((List.replicate (leadB58Ones s.dropLast) 0
          ++ (if n = 0 then [0] else (natDigitsLE 256 s.length n).reverse)).length - 4)).drop 1
       ∧ (List.replicate (leadB58Ones s.dropLast) 0
          ++ (if n = 0 then [0] else (natDigitsLE 256 s.length n).reverse)).drop
            ((List.replicate (leadB58Ones s.dropLast) 0
          ++ (if n = 0 then [0] else (natDigitsLE 256 s.length n).reverse)).length - 4)
          = (dhash ([0] ++ data)).take 4) := by
  rw [base58_decode] at h
  rcases hn : b58StrToNat s 0 with e | n
  · rw [hn] at h
    simp at h
  · rw [hn] at h
    simp only [flatten_replicate_singleton] at h
    refine ⟨n, rfl, ?_⟩
    set k := List.replicate (leadB58Ones s.dropLast) 0
        ++ (if n = 0 then [0] else (natDigitsLE 256 s.length n).reverse) with hk
    by_cases h1 : k.take 1 ≠ [0]
    · rw [if_pos h1] at h
      exact absurd h (by simp)
    · rw [if_neg h1] at h
      by_cases h2 : k.drop (k.length - 4)
          ≠ (dhash (k.take 1 ++ (k.take (k.length - 4)).drop 1)).take 4
      · rw [if_pos h2] at h
        exact absurd h (by simp)
      · rw [if_neg h2] at h
        simp only [Except.ok.injEq] at h
        have h2' := not_not.mp h2
        rw [not_not.mp h1] at h2'
        refine ⟨not_not.mp h1, h.symm, ?_⟩
        rw [← h]
        exact h2'

theorem b58_map_inj : ∀ (s t : List Char), (∀ c ∈ s, c ∈ b58_digits) →
    (∀ c ∈ t, c ∈ b58_digits) →
    s.map b58_digits.indexOf = t.map b58_digits.indexOf → s = t := by
  intro s
  induction s with
  | nil =>
    intro t _ _ h
    cases t with
    | nil => rfl
    | cons c cs => simp at h
  | cons c cs ih =>
    intro t hs ht h
    cases t with
    | nil => simp at h
    | cons c' cs' =>
      simp only [List.map_cons, List.cons.injEq] at h
      have hcc : c = c' := by
        rw [← b58_getD_indexOf c (hs c (by simp)), ← b58_getD_indexOf c' (ht c' (by simp)),
          h.1]
      rw [hcc, ih cs' (fun x hx => hs x (by simp [hx])) (fun x hx => ht x (by simp [hx])) h.2]

theorem b58_val_inj (s t : List Char) (hlen : s.length = t.length)
    (hs : ∀ c ∈ s, c ∈ b58_digits) (ht : ∀ c ∈ t, c ∈ b58_digits)
    (h : s.foldl (fun n c => n * 58 + b58_digits.indexOf c) 0
       = t.foldl (fun n c => n * 58 + b58_digits.indexOf c) 0) : s = t := by
  have es : s.foldl (fun n c => n * 58 + b58_digits.indexOf c) 0
      = (s.map b58_digits.indexOf).foldl (fun a d => a * 58 + d) 0 :=
    (List.foldl_map _ _ _ _).symm
  have et : t.foldl (fun n c => n * 58 + b58_digits.indexOf c) 0
      = (t.map b58_digits.indexOf).foldl (fun a d => a * 58 + d) 0 :=
    (List.foldl_map _ _ _ _).symm
  rw [es, et, foldlBE_eq_ofDigits, foldlBE_eq_ofDigits] at h
  simp only [List.length_map, zero_mul, zero_add] at h
  apply b58_map_inj s t hs ht
  have := ofDigitsBE_inj 58 (by norm_num) (s.map b58_digits.indexOf).reverse
    (t.map b58_digits.indexOf).reverse (by simp [hlen])
    (by intro x hx
        rw [List.mem_reverse] at hx
        obtain ⟨cc, hcc, rfl⟩ := List.mem_map.1 hx
        exact b58_indexOf_lt cc (hs cc hcc))
    (by intro x hx
        rw [List.mem_reverse] at hx
        obtain ⟨cc, hcc, rfl⟩ := List.mem_map.1 hx
        exact b58_indexOf_lt cc (ht cc hcc)) h
  exact List.reverse_injective this

theorem b58_foldl_lt (s : List Char) (hs : ∀ c ∈ s, c ∈ b58_digits) :
    s.foldl (fun n c => n * 58 + b58_digits.indexOf c) 0 < 58 ^ s.length := by
  have es : s.foldl (fun n c => n * 58 + b58_digits.indexOf c) 0
      = (s.map b58_digits.indexOf).foldl (fun a d => a * 58 + d) 0 :=
    (List.foldl_map _ _ _ _).symm
  rw [es]
  have := foldlBE_lt 58 (by norm_num) (s.map b58_digits.indexOf) 0
    (by intro x hx
        obtain ⟨cc, hcc, rfl⟩ := List.mem_map.1 hx
        exact b58_indexOf_lt cc (hs cc hcc))
  simpa using this

theorem decode_k_struct (k d : List Nat) (hA : k.take 1 = [0])
    (hB : d = (k.take (k.length - 4)).drop 1)
    (hC : k.drop (k.length - 4) = (dhash ([0] ++ d)).take 4) :
    k = [0] ++ d ++ (dhash ([0] ++ d)).take 4 := by
  have hlen4 : (k.drop (k.length - 4)).length = 4 := by
    rw [hC, List.length_take, dhash_length]
    rfl
  rw [List.length_drop] at hlen4
  have hL : 4 ≤ k.length := by omega
  rcases Nat.lt_or_ge k.length 5 with h5 | h5
  · exfalso
    have hL4 : k.length = 4 := by omega
    have hd : d = [] := by rw [hB, hL4]; rfl
    have hk : k = (dhash ([0] ++ d)).take 4 := by
      rw [← hC, hL4, Nat.sub_self, List.drop_zero]
    rw [hd] at hk
    rw [hk] at hA
    revert hA
    decide
  · have e2 : k.take (k.length - 4) = [0] ++ d := by
      conv_lhs => rw [← List.take_append_drop 1 (k.take (k.length - 4))]
      rw [← hB]
      congr 1
      rw [List.take_take]
      have hmin : min 1 (k.length - 4) = 1 := by omega
      rw [hmin, hA]
    conv_lhs => rw [← List.take_append_drop (k.length - 4) k]
    rw [e2, hC, List.append_assoc]

theorem b58_res_run_inj (ps pt Ls Lt n m : Nat)
    (hn : n < 256 ^ Ls) (hm : m < 256 ^ Lt)
    (h : List.replicate ps 0 ++ (if n = 0 then [0] else (natDigitsLE 256 Ls n).reverse)
       = List.replicate pt 0 ++ (if m = 0 then [0] else (natDigitsLE 256 Lt m).reverse)) :
    n = m := by
  by_cases hn0 : n = 0 <;> by_cases hm0 : m = 0
  · rw [hn0, hm0]
  · exfalso
    rw [if_pos hn0, if_neg hm0, natDigitsLE_eq_digits 256 (by norm_num) Lt m hm] at h
    obtain ⟨ds, dl, hds⟩ : ∃ ds dl, Nat.digits 256 m = ds ++ [dl] := by
      rcases List.eq_nil_or_concat (Nat.digits 256 m) with hnil | ⟨ds, dl, hds⟩
      · exact absurd hnil (Nat.digits_ne_nil_iff_ne_zero.2 hm0)
      · exact ⟨ds, dl, by simpa using hds⟩
    have hdl : dl ≠ 0 := by
      have h1 := Nat.getLast_digit_ne_zero 256 hm0
      rwa [getLast_of_eq_append hds] at h1
    have hdl_mem : dl ∈ List.replicate pt 0 ++ (Nat.digits 256 m).reverse := by
      rw [List.mem_append, List.mem_reverse, hds]
      exact Or.inr (by simp)
    rw [← h] at hdl_mem
    rcases List.mem_append.1 hdl_mem with hx | hx
    · exact hdl (List.eq_of_mem_replicate hx)
    · exact hdl (List.mem_singleton.1 hx)
  · exfalso
    rw [if_neg hn0, if_pos hm0, natDigitsLE_eq_digits 256 (by norm_num) Ls n hn] at h
    obtain ⟨ds, dl, hds⟩ : ∃ ds dl, Nat.digits 256 n = ds ++ [dl] := by
      rcases List.eq_nil_or_concat (Nat.digits 256 n) with hnil | ⟨ds, dl, hds⟩
      · exact absurd hnil (Nat.digits_ne_nil_iff_ne_zero.2 hn0)
      · exact ⟨ds, dl, by simpa using hds⟩
    have hdl : dl ≠ 0 := by
      have h1 := Nat.getLast_digit_ne_zero 256 hn0
      rwa [getLast_of_eq_append hds] at h1
    have hdl_mem : dl ∈ List.replicate ps 0 ++ (Nat.digits 256 n).reverse := by
      rw [List.mem_append, List.mem_reverse, hds]
      exact Or.inr (by simp)
    rw [h] at hdl_mem
    rcases List.mem_append.1 hdl_mem with hx | hx
    · exact hdl (List.eq_of_mem_replicate hx)
    · exact hdl (List.mem_singleton.1 hx)
  · rw [if_neg hn0, if_neg hm0, natDigitsLE_eq_digits 256 (by norm_num) Ls n hn,
      natDigitsLE_eq_digits 256 (by norm_num) Lt m hm] at h
    obtain ⟨ds, dl, hds⟩ : ∃ ds dl, Nat.digits 256 n = ds ++ [dl] := by
      rcases List.eq_nil_or_concat (Nat.digits 256 n) with hnil | ⟨ds, dl, hds⟩
      · exact absurd hnil (Nat.digits_ne_nil_iff_ne_zero.2 hn0)
      · exact ⟨ds, dl, by simpa using hds⟩
    obtain ⟨es, el, hes⟩ : ∃ es el, Nat.digits 256 m = es ++ [el] := by
      rcases List.eq_nil_or_concat (Nat.digits 256 m) with hnil | ⟨es, el, hes⟩
      · exact absurd hnil (Nat.digits_ne_nil_iff_ne_zero.2 hm0)
      · exact ⟨es, el, by simpa using hes⟩
    have hdl : dl ≠ 0 := by
      have h1 := Nat.getLast_digit_ne_zero 256 hn0
      rwa [getLast_of_eq_append hds] at h1
    have hel : el ≠ 0 := by
      have h1 := Nat.getLast_digit_ne_zero 256 hm0
      rwa [getLast_of_eq_append hes] at h1
    have hrev : (Nat.digits 256 n).reverse = (Nat.digits 256 m).reverse := by
      refine (zeroRun_decomp_inj ps pt _ _ ?_ ?_ h).2
      · rw [hds]; simp [hdl]
      · rw [hes]; simp [hel]
    have hdig : Nat.digits 256 n = Nat.digits 256 m := List.reverse_injective hrev
    have := congrArg (Nat.ofDigits 256) hdig
    rwa [Nat.ofDigits_digits, Nat.ofDigits_digits] at this

theorem base58_decode_ok_unique (s t : List Char) (d : List Nat)
    (hlen : s.length = t.length)
    (hds : base58_decode s [0] = .ok d) (hdt : base58_decode t [0] = .ok d) : s = t := by
  obtain ⟨n, hn, hAs, hBs, hCs⟩ := base58_decode_ok_inv s d hds
  obtain ⟨m, hm, hAt, hBt, hCt⟩ := base58_decode_ok_inv t d hdt
  have hks := decode_k_struct _ d hAs hBs hCs
  have hkt := decode_k_struct _ d hAt hBt hCt
  have hkk := hks.trans hkt.symm
  obtain ⟨hvs, hnval⟩ := b58StrToNat_ok_inv s 0 n hn
  obtain ⟨hvt, hmval⟩ := b58StrToNat_ok_inv t 0 m hm
  have hnb : n < 256 ^ s.length := by
    calc n < 58 ^ s.length := hnval ▸ b58_foldl_lt s hvs
      _ ≤ 256 ^ s.length := Nat.pow_le_pow_left (by norm_num) _
  have hmb : m < 256 ^ t.length := by
    calc m < 58 ^ t.length := hmval ▸ b58_foldl_lt t hvt
      _ ≤ 256 ^ t.length := Nat.pow_le_pow_left (by norm_num) _
  have hnm : n = m := b58_res_run_inj _ _ _ _ _ _ hnb hmb hkk
  apply b58_val_inj s t hlen hvs hvt
  rw [← hnval, ← hmval, hnm]

/-- A validly encoded version-0 address for the all-`8` 20-byte payload. -/
def c7s : List Char := base58_check_encode (List.replicate 20 8) [0]

/-- Claim C7 (amended): changing a single character of a string that
decodes successfully causes `base58_decode` to fail with
`InvalidBase58Error`, `VersionByteError` or `Base58ChecksumError`, or to
return a payload different from the original — it never silently
succeeds with the original payload.  Both halves of the disjunction are
realized (`claim7_counterexample`): the error list is genuinely three
kinds, and the success branch is reachable through a concrete 4-byte
checksum collision, so the disjunction cannot be narrowed. -/
theorem claim7_single_change_amended (s : List Char) (payload : List Nat)
    (i : Nat) (c : Char) (hi : i < s.length) (hc : c ≠ s.get ⟨i, hi⟩)
    (hdec : base58_decode s [0] = .ok payload) :
    base58_decode (s.set i c) [0] = .error .invalidBase58 ∨
    base58_decode (s.set i c) [0] = .error .versionByte ∨
    base58_decode (s.set i c) [0] = .error .b58Checksum ∨
    (∃ d, base58_decode (s.set i c) [0] = .ok d ∧ d ≠ payload) := by
  rcases hr : base58_decode (s.set i c) [0] with e | d
  · rcases base58_decode_err _ _ _ hr with h | h | h
    · exact Or.inl (by rw [h])
    · exact Or.inr (Or.inl (by rw [h]))
    · exact Or.inr (Or.inr (Or.inl (by rw [h])))
  · refine Or.inr (Or.inr (Or.inr ⟨d, rfl, ?_⟩))
    intro hd
    subst hd
    have hlen : (s.set i c).length = s.length := List.length_set s i c
    have heq : s.set i c = s := base58_decode_ok_unique (s.set i c) s d hlen hr hdec
    apply hc
    have hgi : (s.set i c).get ⟨i, by rwa [hlen]⟩ = c := by
      simp [List.get_eq_getElem, List.getElem_set_self]
    rw [← hgi]
    simp only [List.get_eq_getElem]
    congr 1

/-- The original payload of the checksum-collision pair: a 20-byte
payload found by search whose encoding admits a single-character change
that still passes the 4-byte checksum. -/
def c7p : List Nat := [8,8,8,8,8,8,8,8,8,8,8,8,0,0,0,0,0,6,189,26]

/-- Its encoding under version byte 0: `1jU2ZiwRwvA6oxkbqqDxs7ex8vm6ggA3K`. -/
def c7t : List Char := base58_check_encode c7p [0]

/-- The different payload the changed string decodes to. -/
def c7d : List Nat := [8,8,5,255,162,125,51,226,72,33,245,215,56,128,66,217,225,235,139,184]

/-- Counterexample to Claim C7 as stated, in both directions the claim
can fail.  First: changing the first character of a validly encoded
address to `2` raises `VersionByteError`, an error kind other than the
two the claim permits.  Second: the claim's "causes decode to fail"
is itself false — changing character 4 of the valid encoding `c7t`
from `Z` to `1` yields a string that `base58_decode` accepts, returning
the *different* 20-byte payload `c7d`: a genuine 4-byte double-SHA-256
checksum collision, so a single-character change can silently succeed
with a wrong payload. -/
theorem claim7_counterexample :
    (base58_decode c7s [0] = .ok (List.replicate 20 8)
      ∧ base58_decode (c7s.set 0 '2') [0] = .error .versionByte
      ∧ Err.versionByte ≠ Err.invalidBase58 ∧ Err.versionByte ≠ Err.b58Checksum)
    ∧ (base58_decode c7t [0] = .ok c7p
      ∧ c7t.get ⟨4, by decide⟩ = 'Z'
      ∧ base58_decode (c7t.set 4 '1') [0] = .ok c7d
      ∧ c7d ≠ c7p) := by
  exact ⟨⟨by decide, by decide, by decide, by decide⟩,
    ⟨by decide, by decide, by decide, by decide⟩⟩

/-- Witness for the amended C7 at a concrete valid encoding. -/
theorem claim7_single_change_amended_witness :
    0 < c7s.length
    ∧ base58_decode c7s [0] = .ok (List.replicate 20 8)
    ∧ (base58_decode (c7s.set 0 '2') [0] = .error .invalidBase58 ∨
       base58_decode (c7s.set 0 '2') [0] = .error .versionByte ∨
       base58_decode (c7s.set 0 '2') [0] = .error .b58Checksum ∨
       (∃ d, base58_decode (c7s.set 0 '2') [0] = .ok d ∧ d ≠ List.replicate 20 8)) :=
  ⟨by decide, by decide,
   claim7_single_change_amended c7s (List.replicate 20 8) 0 '2' (by decide) (by decide)
     (by decide)⟩

end Cpd
